import Mathlib

/-!
# Verification of the AI academic-writing-system agent core

Shallow embedding, in Lean 4, of the agent-orchestration core of the
`AI-academic-writing-system` repository:

* `ContentCache` — the in-memory paper-content cache
  (`server/contentCache.cjs`: `storeContent`, `getContent`,
  `cleanExpiredCache`, `clearCache`);
* `ToolParser` — tool-call detection in model replies
  (`server/tools/toolParser.cjs`: `parseToolCalls`,
  `extractContentBeforeToolCall`);
* `Agent` — the client-side orchestration loop
  (`AgentChat.handleSend`) and the tool executor's `executeEditFile`
  (`server/tools/toolExecutor.cjs`);
* `StreamRoute` — the SSE event sequence of `POST /api/agent/stream`
  (`server/routes/agent.cjs`).

JavaScript dynamic values that matter to control flow are modelled by a
small `Json` type with JS truthiness; machine time (`Date.now()`) is an
explicit `Nat` argument; nondeterministic id generation
(`generateContentId`) is an explicit argument constrained where the code
constrains it.  Modelling notes local to a definition are given in its
doc comment.
-/

/-! ## JSON values

Model of the JavaScript values that flow through the system: results of
`JSON.parse`, tool parameters, and tool-result `data` payloads.  Numbers
are modelled as integers (the tool-call payloads exercised by the code
use only integers and strings; fractional literals are outside the
model). -/

inductive Json where
  | null
  | bool (b : Bool)
  | num (n : Int)
  | str (s : String)
  | arr (elems : List Json)
  | obj (fields : List (String × Json))
deriving Repr, BEq

/-- JS truthiness of a value: `null`/`false`/`0`/`""` are falsy, every
array and object is truthy. -/
def Json.truthy : Json → Bool
  | .null => false
  | .bool b => b
  | .num n => n != 0
  | .str s => s != ""
  | .arr _ => true
  | .obj _ => true

/-- Property lookup on a JS object built by `JSON.parse`: with duplicate
keys the last occurrence wins; access on a non-object yields `undefined`
(modelled as `none`). -/
def Json.get (key : String) : Json → Option Json
  | .obj fields => fields.foldl (fun acc p => if p.1 = key then some p.2 else acc) none
  | _ => none

mutual

/-- JS string coercion (`String(v)`), as used by string concatenation and
template literals in the tool executor.  Array coercion is
`Array.prototype.join(",")` with `null` elements rendered empty; objects
render as `"[object Object]"`. -/
def Json.toJsString : Json → String
  | .null => "null"
  | .bool b => if b then "true" else "false"
  | .num n => toString n
  | .str s => s
  | .arr xs => String.intercalate "," (Json.joinParts xs)
  | .obj _ => "[object Object]"

/-- Elements of an array under `Array.prototype.join`: `null` renders
empty. -/
def Json.joinParts : List Json → List String
  | [] => []
  | .null :: t => "" :: Json.joinParts t
  | x :: t => Json.toJsString x :: Json.joinParts t

end

/-! ## ContentCache (`server/contentCache.cjs`)

The cache is a JS `Map` from content id to
`{ content, hash, createTime, lastAccess }`; a `Map` preserves insertion
order and `set` on an existing key overwrites in place, which the
association-list operations below reproduce.  The MD5-prefix hash
`generateHash` is kept abstract as a function argument `hash`
(deterministic, as any function is); `Date.now()` is the explicit `now`
argument; the random `generateContentId` is the explicit fresh-id
argument, always of the form `"content_" ++ …` as in the source. -/

namespace ContentCache

structure CEntry where
  content : String
  hash : String
  createTime : Nat
  lastAccess : Nat
deriving Repr, DecidableEq

abbrev Cache := List (String × CEntry)

/-- `CACHE_MAX_SIZE = 50` -/
def CACHE_MAX_SIZE : Nat := 50

/-- `CACHE_TTL = 2 * 60 * 60 * 1000` (two hours in milliseconds) -/
def CACHE_TTL : Nat := 2 * 60 * 60 * 1000

/-- Result shape of `storeContent`: `{ contentId, isNew, size }`. -/
structure StoreResult where
  contentId : Option String
  isNew : Bool
  size : Nat
deriving Repr, DecidableEq

/-- JS `Map.set`: overwrite in place when the key exists (keeping its
position), append otherwise. -/
def mapSet (k : String) (v : CEntry) : Cache → Cache
  | [] => [(k, v)]
  | (k', v') :: rest => if k' = k then (k, v) :: rest else (k', v') :: mapSet k v rest

/-- JS `Map.get`. -/
def mapGet (k : String) : Cache → Option CEntry
  | [] => none
  | (k', v') :: rest => if k' = k then some v' else mapGet k rest

/-- JS `Map.delete` (first occurrence of the key). -/
def mapDelete (k : String) : Cache → Cache
  | [] => []
  | (k', v') :: rest => if k' = k then rest else (k', v') :: mapDelete k rest

/-- The dedup scan of `storeContent`: first entry (in `Map` iteration
order) whose stored `hash` equals `h`.  Note that the scan does **not**
test expiry. -/
def findByHash (h : String) : Cache → Option (String × CEntry)
  | [] => none
  | (k, v) :: rest => if v.hash = h then some (k, v) else findByHash h rest

/-- `cached.lastAccess = Date.now()` on the entry stored under `k`,
in place. -/
def refreshAccess (k : String) (now : Nat) : Cache → Cache
  | [] => []
  | (k', v') :: rest =>
    if k' = k then (k', { v' with lastAccess := now }) :: rest
    else (k', v') :: refreshAccess k now rest

/-- `Date.now() - cached.lastAccess > CACHE_TTL`.  Truncated `Nat`
subtraction agrees with the JS comparison: when `now < lastAccess` the JS
difference is negative, hence not `> CACHE_TTL`, and the truncated
difference is `0`, likewise not `> CACHE_TTL`. -/
def isExpired (now : Nat) (e : CEntry) : Bool := CACHE_TTL < now - e.lastAccess

/-- `cleanExpiredCache()`: delete every entry whose age since last access
exceeds the TTL. -/
def cleanExpiredCache (now : Nat) (c : Cache) : Cache :=
  c.filter fun p => ! isExpired now p.2

/-- The LRU scan of `storeContent`: entry with the strictly smallest
`lastAccess`, the earliest such entry winning ties (the source updates
its candidate only on `<`). -/
def findOldest : Cache → Option (String × CEntry)
  | [] => none
  | (k, v) :: rest =>
    match findOldest rest with
    | none => some (k, v)
    | some (k', v') =>
      if v'.lastAccess < v.lastAccess then some (k', v') else some (k, v)

/-- The capacity-eviction step of `storeContent`: when
`contentCache.size >= CACHE_MAX_SIZE`, delete the least-recently-accessed
entry.  The source guards the delete with `if (oldestId)`, a JS
truthiness test, hence the `k ≠ ""` condition. -/
def evictIfFull (c : Cache) : Cache :=
  if CACHE_MAX_SIZE ≤ c.length then
    match findOldest c with
    | some (k, _) => if k = "" then c else mapDelete k c
    | none => c
  else c

/-- `storeContent(content)` for string input (the non-string guard is
`storeContentJs` below).  Dedup by hash over **all** entries, else clean
expired entries, evict LRU if still at capacity, then insert under the
freshly generated id. -/
def storeContent (hash : String → String) (newId : String) (now : Nat)
    (content : String) (c : Cache) : StoreResult × Cache :=
  if content = "" then (⟨none, false, 0⟩, c)
  else
    let h := hash content
    match findByHash h c with
    | some (id, cached) =>
      (⟨some id, false, cached.content.length⟩, refreshAccess id now c)
    | none =>
      let c1 := cleanExpiredCache now c
      let c2 := evictIfFull c1
      (⟨some newId, true, content.length⟩, mapSet newId ⟨content, h, now, now⟩ c2)

/-- The dynamically-typed argument of `storeContent`: the source guards
`!content || typeof content !== 'string'`, so any non-string value takes
the same early return as the empty string. -/
inductive JsArg where
  | jstr (s : String)
  | nonString
deriving Repr, DecidableEq

/-- `storeContent` including its dynamic-type guard. -/
def storeContentJs (hash : String → String) (newId : String) (now : Nat)
    (arg : JsArg) (c : Cache) : StoreResult × Cache :=
  match arg with
  | .nonString => (⟨none, false, 0⟩, c)
  | .jstr s => storeContent hash newId now s c

/-- `getContent(contentId)`: `null` for a falsy id or an absent entry;
an entry whose age since last access exceeds the TTL is deleted and
reported absent; otherwise the access time is refreshed and the content
returned. -/
def getContent (now : Nat) (contentId : String) (c : Cache) :
    Option String × Cache :=
  if contentId = "" then (none, c)
  else
    match mapGet contentId c with
    | none => (none, c)
    | some cached =>
      if isExpired now cached then (none, mapDelete contentId c)
      else (some cached.content, refreshAccess contentId now c)

/-- `clearCache()`. -/
def clearCache : Cache := []

/-- One cache operation, for invariant statements over operation
sequences.  A `store` carries the nonce of `generateContentId`: the
generated id is `"content_" ++ nonce`, mirroring the
`` `content_${Date.now()}_${random}` `` template of the source. -/
inductive CacheOp where
  | store (nonce : String) (now : Nat) (content : String)
  | get (contentId : String) (now : Nat)
  | clean (now : Nat)
  | clear
deriving Repr

def applyOp (hash : String → String) : CacheOp → Cache → Cache
  | .store nonce now content, c =>
    (storeContent hash ("content_" ++ nonce) now content c).2
  | .get id now, c => (getContent now id c).2
  | .clean now, c => cleanExpiredCache now c
  | .clear, _ => clearCache

def runOps (hash : String → String) (ops : List CacheOp) (c : Cache) : Cache :=
  ops.foldl (fun c op => applyOp hash op c) c

/-- Invariant: no two entries share a content hash. -/
def hashesDistinct (c : Cache) : Prop :=
  c.Pairwise fun a b => a.2.hash ≠ b.2.hash

end ContentCache

/-! ## ToolParser (`server/tools/toolParser.cjs`)

`parseToolCalls` scans the model reply with three regular-expression
patterns, in a fixed priority order:

1. `TOOL_CALL:\s*(\{(?:[^{}]|\{(?:[^{}]|\{[^{}]*\})*\})*\})` — a
   `TOOL_CALL:` label followed by a brace span of nesting depth at most
   three;
2. the same, fenced inside a ` ```json … ``` ` block;
3. a bare JSON object `\{\s*"tool_name"\s*:\s*"([^"]+)"\s*,\s*"parameters"\s*:\s*(\{[^}]*\})\s*\}`.

For each pattern, `RegExp.exec` yields the **earliest** match of that
pattern; its capture is decoded with `JSON.parse` (with a
strip-and-reparse fallback on the whole match when that throws), and the
decoded call is accepted only when `tool_name`/`parameters` are truthy
and the name is in the tool catalog; otherwise the next pattern is
tried.  The first accepted call is returned as a singleton list.

Character classes: the model restricts `\s` and `String.prototype.trim`
to the ASCII whitespace characters (space, tab, newline, carriage
return, vertical tab, form feed); the non-ASCII members of the JS
classes never occur in the inputs considered here. -/

namespace ToolParser

/-- The tool catalog.  `toolDefinitions.cjs` is not among the provided
sources; the names are transcribed from the `executeTool` dispatch in
`toolExecutor.cjs` and the identical catalog shown in the client's tool
name map. -/
def AVAILABLE_TOOL_NAMES : List String :=
  ["search_papers", "download_paper", "read_pdf_content", "view_file",
   "edit_file", "search_in_file", "list_resources", "add_resource",
   "insert_resource"]

/-- `AVAILABLE_TOOLS.some(tool => tool.name === toolCall.tool_name)`. -/
def isValidTool (name : String) : Bool := AVAILABLE_TOOL_NAMES.contains name

/-- ASCII fragment of the JS `\s` class. -/
def jsWs (c : Char) : Bool :=
  c = ' ' || c = '\t' || c = '\n' || c = '\r' || c = '\x0b' || c = '\x0c'

/-- Greedy `\s*`. -/
def dropWsStar (cs : List Char) : List Char := cs.dropWhile jsWs

/-- The whitespace consumed by a greedy `\s*`. -/
def takeWsStar (cs : List Char) : List Char := cs.takeWhile jsWs

/-- `String.prototype.trim`, restricted to the ASCII whitespace class. -/
def jsTrim (s : String) : String :=
  String.mk (((s.data.dropWhile jsWs).reverse.dropWhile jsWs).reverse)

/-- Expect a literal at the head of the input, returning the rest. -/
def dropLit (lit : String) (cs : List Char) : Option (List Char) :=
  if lit.data.isPrefixOf cs then some (cs.drop lit.length) else none

/-- A parsed tool call: `{ tool_name, parameters }`. -/
structure ToolCall where
  tool_name : String
  parameters : Json
deriving Repr, BEq

/-! ### A small JSON decoder (`JSON.parse`)

Recursive-descent decoder on character lists, fueled by the input
length.  Strings support the common escapes (`\"`, `\\`, `\/`, `\n`,
`\t`, `\r`, `\b`, `\f`); numeric literals are (optionally signed)
integers; `\u` escapes and fractional/exponent number forms are outside
the model.  Duplicate object keys are kept in order; `Json.get` resolves
them last-wins as `JSON.parse` does. -/

/-- JSON's own whitespace class (space, tab, newline, carriage return). -/
def jsonWs (c : Char) : Bool := c = ' ' || c = '\t' || c = '\n' || c = '\r'

def skipJsonWs (cs : List Char) : List Char := cs.dropWhile jsonWs

/-- Decode a JSON string body after the opening quote. -/
def parseJsonString : Nat → List Char → Option (String × List Char)
  | 0, _ => none
  | _, [] => none
  | fuel + 1, c :: rest =>
    if c = '"' then some ("", rest)
    else if c = '\\' then
      match rest with
      | [] => none
      | e :: rest' =>
        let esc : Option Char :=
          if e = '"' then some '"'
          else if e = '\\' then some '\\'
          else if e = '/' then some '/'
          else if e = 'n' then some '\n'
          else if e = 't' then some '\t'
          else if e = 'r' then some '\r'
          else if e = 'b' then some '\x08'
          else if e = 'f' then some '\x0c'
          else none
        match esc with
        | none => none
        | some ch =>
          match parseJsonString fuel rest' with
          | none => none
          | some (s, rem) => some (String.mk (ch :: s.data), rem)
    else
      match parseJsonString fuel rest with
      | none => none
      | some (s, rem) => some (String.mk (c :: s.data), rem)

/-- Decode a run of decimal digits as a natural number. -/
def parseDigits (cs : List Char) : Option (Nat × List Char) :=
  let digits := cs.takeWhile Char.isDigit
  if digits = [] then none
  else some (digits.foldl (fun acc c => acc * 10 + (c.toNat - 48)) 0,
             cs.dropWhile Char.isDigit)

mutual

def parseJsonValue : Nat → List Char → Option (Json × List Char)
  | 0, _ => none
  | fuel + 1, cs =>
    match skipJsonWs cs with
    | [] => none
    | c :: rest =>
      if c = '"' then
        match parseJsonString (fuel + 1) rest with
        | none => none
        | some (s, rem) => some (.str s, rem)
      else if c = '{' then
        match skipJsonWs rest with
        | '}' :: rem => some (.obj [], rem)
        | rest' => parseJsonMembers fuel rest' []
      else if c = '[' then
        match skipJsonWs rest with
        | ']' :: rem => some (.arr [], rem)
        | rest' => parseJsonElements fuel rest' []
      else if c = 't' then
        (dropLit "rue" rest).map fun rem => (.bool true, rem)
      else if c = 'f' then
        (dropLit "alse" rest).map fun rem => (.bool false, rem)
      else if c = 'n' then
        (dropLit "ull" rest).map fun rem => (.null, rem)
      else if c = '-' then
        match parseDigits rest with
        | none => none
        | some (n, rem) => some (.num (-(n : Int)), rem)
      else if c.isDigit then
        match parseDigits (c :: rest) with
        | none => none
        | some (n, rem) => some (.num (n : Int), rem)
      else none

def parseJsonMembers : Nat → List Char → List (String × Json) →
    Option (Json × List Char)
  | 0, _, _ => none
  | fuel + 1, cs, acc =>
    match skipJsonWs cs with
    | '"' :: rest =>
      match parseJsonString fuel rest with
      | none => none
      | some (key, rem) =>
        match skipJsonWs rem with
        | ':' :: rem' =>
          match parseJsonValue fuel rem' with
          | none => none
          | some (v, rem'') =>
            match skipJsonWs rem'' with
            | ',' :: rem''' => parseJsonMembers fuel rem''' (acc ++ [(key, v)])
            | '}' :: rem''' => some (.obj (acc ++ [(key, v)]), rem''')
            | _ => none
        | _ => none
    | _ => none

def parseJsonElements : Nat → List Char → List Json →
    Option (Json × List Char)
  | 0, _, _ => none
  | fuel + 1, cs, acc =>
    match parseJsonValue fuel cs with
    | none => none
    | some (v, rem) =>
      match skipJsonWs rem with
      | ',' :: rem' => parseJsonElements fuel rem' (acc ++ [v])
      | ']' :: rem' => some (.arr (acc ++ [v]), rem')
      | _ => none

end

/-- `JSON.parse`: decode one value, allow surrounding whitespace, and
require the whole input to be consumed. -/
def jsonParse (s : String) : Option Json :=
  match parseJsonValue (s.length + 1) s.data with
  | none => none
  | some (v, rem) => if skipJsonWs rem = [] then some v else none

/-! ### The brace spans matched by patterns 1 and 2

`(\{(?:[^{}]|\{(?:[^{}]|\{[^{}]*\})*\})*\})` matches a brace span whose
nesting depth is at most three.  When an inner group cannot complete,
the enclosing repetition stops in front of the offending `{`, the
required closing `}` then fails against that `{`, and every backtracking
alternative likewise fails (a surrendered iteration re-exposes either a
non-brace character or a `{`, never the needed `}`), so the whole
attempt at this start position fails — which is what the `none` results
below propagate. -/

/-- Innermost level: `\{[^{}]*\}`.  Returns the matched span and the
rest. -/
def braceL3 : List Char → Option (List Char × List Char)
  | '{' :: rest =>
    let body := rest.takeWhile fun c => c ≠ '{' && c ≠ '}'
    match rest.dropWhile (fun c => c ≠ '{' && c ≠ '}') with
    | '}' :: rem => some ('{' :: body ++ ['}'], rem)
    | _ => none
  | _ => none

/-- Middle level: `\{(?:[^{}]|\{[^{}]*\})*\}`. -/
def braceL2 (fuel : Nat) : List Char → Option (List Char × List Char)
  | '{' :: rest => (braceBody2 fuel rest).map fun (b, rem) => ('{' :: b, rem)
  | _ => none
where
  braceBody2 : Nat → List Char → Option (List Char × List Char)
    | 0, _ => none
    | _, [] => none
    | fuel + 1, c :: rest =>
      if c = '}' then some (['}'], rest)
      else if c = '{' then
        match braceL3 (c :: rest) with
        | none => none
        | some (g, rem) => (braceBody2 fuel rem).map fun (b, r) => (g ++ b, r)
      else (braceBody2 fuel rest).map fun (b, r) => (c :: b, r)

/-- Outer level: the full capture group of patterns 1 and 2. -/
def braceL1 (fuel : Nat) : List Char → Option (List Char × List Char)
  | '{' :: rest => (braceBody1 fuel rest).map fun (b, rem) => ('{' :: b, rem)
  | _ => none
where
  braceBody1 : Nat → List Char → Option (List Char × List Char)
    | 0, _ => none
    | _, [] => none
    | fuel + 1, c :: rest =>
      if c = '}' then some (['}'], rest)
      else if c = '{' then
        match braceL2 fuel (c :: rest) with
        | none => none
        | some (g, rem) => (braceBody1 fuel rem).map fun (b, r) => (g ++ b, r)
      else (braceBody1 fuel rest).map fun (b, r) => (c :: b, r)

/-- Which of the three patterns produced a match. -/
inductive PatKind where
  | p1
  | p2
  | p3
deriving Repr, DecidableEq

/-- A regex match: the full matched text and the captures the decoding
step uses (`cap1` is the JSON span for patterns 1/2 and the `tool_name`
capture for pattern 3; `cap2` is pattern 3's `parameters` capture). -/
structure PatMatch where
  fullMatch : List Char
  cap1 : List Char
  cap2 : Option (List Char)
deriving Repr

/-- Pattern 1 anchored at the head of the input:
`TOOL_CALL:\s*(\{…\})`. -/
def p1At (cs : List Char) : Option PatMatch := do
  let r1 ← dropLit "TOOL_CALL:" cs
  let ws := takeWsStar r1
  let (span, _) ← braceL1 cs.length (dropWsStar r1)
  pure ⟨"TOOL_CALL:".data ++ ws ++ span, span, none⟩

/-- Pattern 2 anchored at the head:
`` ```json\s*TOOL_CALL:\s*(\{…\})\s*``` ``. -/
def p2At (cs : List Char) : Option PatMatch := do
  let r1 ← dropLit "```json" cs
  let ws1 := takeWsStar r1
  let r2 ← dropLit "TOOL_CALL:" (dropWsStar r1)
  let ws2 := takeWsStar r2
  let (span, r3) ← braceL1 cs.length (dropWsStar r2)
  let ws3 := takeWsStar r3
  let r4 ← dropLit "```" (dropWsStar r3)
  let _ := r4
  pure ⟨"```json".data ++ ws1 ++ "TOOL_CALL:".data ++ ws2 ++ span
          ++ ws3 ++ "```".data,
        span, none⟩

/-- Pattern 3 anchored at the head:
`\{\s*"tool_name"\s*:\s*"([^"]+)"\s*,\s*"parameters"\s*:\s*(\{[^}]*\})\s*\}`. -/
def p3At (cs : List Char) : Option PatMatch := do
  let r1 ← dropLit "\x7b" cs
  let ws1 := takeWsStar r1
  let r2 ← dropLit "\"tool_name\"" (dropWsStar r1)
  let ws2 := takeWsStar r2
  let r3 ← dropLit ":" (dropWsStar r2)
  let ws3 := takeWsStar r3
  let r4 ← dropLit "\"" (dropWsStar r3)
  let name := r4.takeWhile (· ≠ '"')
  if name = [] then none else
  let r5 ← dropLit "\"" (r4.dropWhile (· ≠ '"'))
  let ws4 := takeWsStar r5
  let r6 ← dropLit "," (dropWsStar r5)
  let ws5 := takeWsStar r6
  let r7 ← dropLit "\"parameters\"" (dropWsStar r6)
  let ws6 := takeWsStar r7
  let r8 ← dropLit ":" (dropWsStar r7)
  let ws7 := takeWsStar r8
  let r9 ← dropLit "\x7b" (dropWsStar r8)
  let body := r9.takeWhile (· ≠ '}')
  let r10 ← dropLit "\x7d" (r9.dropWhile (· ≠ '}'))
  let params := '{' :: body ++ ['}']
  let ws8 := takeWsStar r10
  let _ ← dropLit "\x7d" (dropWsStar r10)
  pure ⟨'{' :: ws1 ++ "\"tool_name\"".data ++ ws2 ++ [':'] ++ ws3
          ++ ['"'] ++ name ++ ['"'] ++ ws4 ++ [','] ++ ws5
          ++ "\"parameters\"".data ++ ws6 ++ [':'] ++ ws7 ++ params
          ++ ws8 ++ ['}'],
        name, some params⟩

def patAt : PatKind → List Char → Option PatMatch
  | .p1 => p1At
  | .p2 => p2At
  | .p3 => p3At

/-- Scan for the smallest start position at which the pattern matches,
counting from `i`. -/
def execPatGo (pk : PatKind) (i : Nat) : List Char → Option (Nat × PatMatch)
  | [] =>
    match patAt pk [] with
    | some m => some (i, m)
    | none => none
  | c :: t =>
    match patAt pk (c :: t) with
    | some m => some (i, m)
    | none => execPatGo pk (i + 1) t

/-- `RegExp.exec`: the match at the smallest start position, with that
position. -/
def execPat (pk : PatKind) (cs : List Char) : Option (Nat × PatMatch) :=
  execPatGo pk 0 cs

/-- The acceptance test applied to a decoded call:
`toolCall && toolCall.tool_name && toolCall.parameters` plus catalog
membership (a `===` comparison, so only a string `tool_name` can ever be
valid).  `none` means the loop falls through to the next pattern. -/
def extractCall (tc : Json) : Option ToolCall :=
  if tc.truthy then
    match tc.get "tool_name", tc.get "parameters" with
    | some tn, some ps =>
      if tn.truthy && ps.truthy then
        match tn with
        | .str name => if isValidTool name then some ⟨name, ps⟩ else none
        | _ => none
      else none
    | _, _ => none
  else none

/-- Primary decode of a match: patterns 1/2 `JSON.parse` the trimmed
capture; pattern 3 builds `{ tool_name: match[1], parameters:
JSON.parse(match[2]) }`.  `none` is a thrown `JSON.parse` error. -/
def primaryDecode (pk : PatKind) (m : PatMatch) : Option Json :=
  match pk with
  | .p3 =>
    match m.cap2 with
    | none => none
    | some params =>
      match jsonParse (String.mk params) with
      | none => none
      | some ps => some (.obj [("tool_name", .str (String.mk m.cap1)),
                              ("parameters", ps)])
  | _ => jsonParse (jsTrim (String.mk m.cap1))

/-- `.replace(/LIT\s*/, '')`: remove the first occurrence of `lit`
together with the whitespace following it. -/
def removeFirstLitWs (lit : String) : List Char → List Char
  | [] => []
  | c :: t =>
    if lit.data.isPrefixOf (c :: t) then dropWsStar ((c :: t).drop lit.length)
    else c :: removeFirstLitWs lit t

/-- `` .replace(/```\s*$/, '') ``: strip a trailing fence with trailing
whitespace. -/
def stripTrailingFence (cs : List Char) : List Char :=
  let rev := cs.reverse.dropWhile jsWs
  if "```".data.isPrefixOf rev then (rev.drop 3).reverse else cs

/-- The strip-and-reparse fallback applied to `match[0]` when the
primary decode throws. -/
def fallbackDecode (full : List Char) : Option Json :=
  jsonParse (jsTrim (String.mk (stripTrailingFence
    (removeFirstLitWs "```json" (removeFirstLitWs "TOOL_CALL:" full)))))

/-- One iteration of the pattern loop of `parseToolCalls`: earliest
match of the pattern, primary decode, fallback decode on a thrown parse,
acceptance test.  `none` falls through to the next pattern. -/
def attemptPattern (cs : List Char) (pk : PatKind) : Option ToolCall :=
  match execPat pk cs with
  | none => none
  | some (_, m) =>
    match primaryDecode pk m with
    | some tc => extractCall tc
    | none =>
      match fallbackDecode m.fullMatch with
      | some tc => extractCall tc
      | none => none

/-- `parseToolCalls(response)`: at most one tool call, from the first
pattern (in priority order 1, 2, 3) whose earliest match is accepted. -/
def parseToolCalls (s : String) : List ToolCall :=
  if s = "" then []
  else
    match attemptPattern s.data .p1 with
    | some c => [c]
    | none =>
      match attemptPattern s.data .p2 with
      | some c => [c]
      | none =>
        match attemptPattern s.data .p3 with
        | some c => [c]
        | none => []

/-! ### `extractContentBeforeToolCall`

The truncation point is determined by three *marker prefix* patterns
(`/TOOL_CALL:\s*\{/`, `` /```json\s*TOOL_CALL:/ ``,
`/\{\s*"tool_name"\s*:/`); the source takes the minimum of the three
match positions, which equals the smallest position at which any of the
three matches. -/

/-- Does some marker prefix pattern match at the head of `cs`? -/
def markerAt (cs : List Char) : Bool :=
  (Option.isSome do
    let r ← dropLit "TOOL_CALL:" cs
    dropLit "\x7b" (dropWsStar r)) ||
  (Option.isSome do
    let r ← dropLit "```json" cs
    dropLit "TOOL_CALL:" (dropWsStar r)) ||
  (Option.isSome do
    let r ← dropLit "\x7b" cs
    let r2 ← dropLit "\"tool_name\"" (dropWsStar r)
    dropLit ":" (dropWsStar r2))

/-- Scan for the earliest marker position, counting from `i`. -/
def firstMarkerIndexGo (i : Nat) : List Char → Option Nat
  | [] => if markerAt [] then some i else none
  | c :: t => if markerAt (c :: t) then some i else firstMarkerIndexGo (i + 1) t

/-- Position of the earliest marker (the minimum of the three patterns'
`exec` positions). -/
def firstMarkerIndex (s : String) : Option Nat :=
  firstMarkerIndexGo 0 s.data

/-- `extractContentBeforeToolCall(response)`: the (trimmed) prefix
before the first marker; the empty string when the marker starts the
text; the whole text when there is no marker. -/
def extractContentBeforeToolCall (s : String) : String :=
  match firstMarkerIndex s with
  | some (i + 1) => jsTrim (String.mk (s.data.take (i + 1)))
  | some 0 => ""
  | none => s

end ToolParser

/-! ## Tool executor (`server/tools/toolExecutor.cjs`) and the
orchestration loop (`AgentChat.handleSend`)

The loop lives in the `AgentChat` React component; per user turn it
sends an initial model request and then, while the reply carries a tool
call and fewer than `MAX_TOOL_ITERATIONS` iterations have run, executes
the reply's first tool call (a 30-second `Promise.race` converting
timeouts and thrown errors into a failed result), optionally updates the
editor content, and sends exactly one follow-up model request embedding
the result.  The model backend is abstracted as a `respond` function
(one call per model invocation, indexed in order, receiving the current
editor content and the folded-back result) and the tool backend as an
`exec` function (indexed by execution number). -/

namespace Agent

open ToolParser (ToolCall)

/-- `{ success, data?, error? }`. -/
structure ToolResult where
  success : Bool
  data : Option Json
  error : Option String
deriving Repr, BEq

/-- `result.data?.KEY`: optional chaining through the `data` payload. -/
def ToolResult.dataGet (key : String) (r : ToolResult) : Option Json :=
  match r.data with
  | none => none
  | some j => j.get key

/-- One model reply as `sendAgentRequest` returns it (`tool_calls`
absent or empty both end the loop, so the empty list covers both). -/
structure AgentReply where
  response : String
  reasoning : String
  tool_calls : List ToolCall
deriving Repr

/-- Behavior of one `agentService.executeToolCall` invocation inside the
30-second `Promise.race`: a settled result, a thrown error, or a
timeout. -/
inductive ExecOutcome where
  | ok (r : ToolResult)
  | thrown (msg : String)
  | timeout
deriving Repr

/-- `TOOL_TIMEOUT = 30000` (milliseconds). -/
def TOOL_TIMEOUT : Nat := 30000

/-- `` `工具 ${toolCall.tool_name} 执行超时 (${TOOL_TIMEOUT/1000}秒)` `` -/
def timeoutMessage (name : String) : String :=
  "工具 " ++ name ++ " 执行超时 (" ++ toString (TOOL_TIMEOUT / 1000) ++ "秒)"

/-- The `try`/`catch` around the race: a thrown error or a timeout
becomes `{ success: false, error: message }`. -/
def interpretExec (tc : ToolCall) : ExecOutcome → ToolResult
  | .ok r => r
  | .thrown m => ⟨false, none, some m⟩
  | .timeout => ⟨false, none, some (timeoutMessage tc.tool_name)⟩

/-- The editor-content update step of the loop:
`if (result.success && toolCall.tool_name === 'edit_file' &&
result.data?.content) currentEditorContent = result.data.content`. -/
def updateEditorContent (tc : ToolCall) (r : ToolResult) (cur : String) :
    String :=
  if r.success && tc.tool_name == "edit_file" then
    match r.dataGet "content" with
    | some j => if j.truthy then j.toJsString else cur
    | none => cur
  else cur

/-- `MAX_TOOL_ITERATIONS = 10`. -/
def MAX_TOOL_ITERATIONS : Nat := 10

/-- How a turn ends from the caller's point of view: the `try` block
runs to completion (`normal` — including a silent exit at the iteration
limit), or a model request rejects and the `catch` appends an error
message (`modelError`). -/
inductive Outcome where
  | normal
  | modelError (msg : String)
deriving Repr, DecidableEq

/-- Observable trace of one `handleSend` turn. -/
structure LoopTrace where
  /-- The tool calls executed, in order, with the result recorded for
  each (post `try`/`catch`). -/
  executed : List (ToolCall × ToolResult)
  /-- Number of `sendAgentRequest` model invocations issued. -/
  invocations : Nat
  /-- `currentEditorContent` when the turn ends. -/
  finalEditor : String
  /-- The last model reply, for turns whose `try` block completed. -/
  finalReply : Option AgentReply
  outcome : Outcome

/-- The `while` loop of `handleSend`.  The source counts iterations
upward and tests `iterationCount < MAX_TOOL_ITERATIONS`; here `fuel`
counts the remaining iterations downward (`fuel =
MAX_TOOL_ITERATIONS - iterationCount`), which is the same test
(`fuel > 0`).  `respond n editor folded` is the `n`-th model invocation
(0-based) with the current editor content and the tool call/result pair
being folded back; `exec k tc editor` is the `k`-th tool execution
(0-based). -/
def loopAux (respond : Nat → String → Option (ToolCall × ToolResult) →
      Except String AgentReply)
    (exec : Nat → ToolCall → String → ExecOutcome) :
    Nat → AgentReply → String → Nat → List (ToolCall × ToolResult) →
      LoopTrace
  | 0, reply, editor, invocations, acc =>
    ⟨acc, invocations, editor, some reply, .normal⟩
  | fuel + 1, reply, editor, invocations, acc =>
    match reply.tool_calls with
    | [] => ⟨acc, invocations, editor, some reply, .normal⟩
    | tc :: _ =>
      let result := interpretExec tc (exec acc.length tc editor)
      let editor' := updateEditorContent tc result editor
      match respond invocations editor' (some (tc, result)) with
      | .error e =>
        ⟨acc ++ [(tc, result)], invocations + 1, editor', none, .modelError e⟩
      | .ok reply' =>
        loopAux respond exec fuel reply' editor' (invocations + 1)
          (acc ++ [(tc, result)])

/-- One full `handleSend` turn: the initial model request followed by
the tool loop. -/
def runToolLoop (respond : Nat → String → Option (ToolCall × ToolResult) →
      Except String AgentReply)
    (exec : Nat → ToolCall → String → ExecOutcome)
    (editor0 : String) : LoopTrace :=
  match respond 0 editor0 none with
  | .error e => ⟨[], 1, editor0, none, .modelError e⟩
  | .ok r0 => loopAux respond exec MAX_TOOL_ITERATIONS r0 editor0 1 []

/-! ### `executeEditFile(parameters, editor_content)`

Parameters arrive as a parsed JSON object; `operation` is dispatched by
a JS `switch` (strict string comparison).  Undefined fields coerced into
strings render as `"undefined"`.  Two modelling notes:
`String.prototype.replace` `$`-substitution patterns in the replacement
string are not modelled (plain splice of the first occurrence), and a
non-numeric `position` follows the JS `NaN` comparison path
(`slice(0, NaN) = ""`, `slice(NaN)` = whole string) without modelling
numeric-string coercion. -/

/-- Index of the first occurrence of `t` in `s` (JS `indexOf`; the empty
needle matches at 0). -/
def indexOfSub (s t : List Char) : Option Nat :=
  if t.isPrefixOf s then some 0
  else
    match s with
    | [] => none
    | _ :: s' => (indexOfSub s' t).map (· + 1)

/-- `editor_content.includes(target)`. -/
def includesSub (s t : List Char) : Bool := (indexOfSub s t).isSome

/-- `s.replace(target, repl)` for a string pattern: replace the first
occurrence. -/
def replaceFirst (s t repl : String) : String :=
  match indexOfSub s.data t.data with
  | none => s
  | some i =>
    String.mk (s.data.take i ++ repl.data ++ s.data.drop (i + t.length))

/-- Number of lines of a string (`s.split('\n').length`). -/
def lineCount (s : String) : Nat := (s.split (· = '\n')).length

/-- The `stats` object of a successful edit. -/
def editStats (oldContent newContent : String) : Json :=
  .obj [("old_lines", .num (lineCount oldContent)),
        ("new_lines", .num (lineCount newContent)),
        ("lines_added",
         .num ((lineCount newContent : Int) - (lineCount oldContent : Int)))]

/-- The success payload of `executeEditFile`: note the new document is
returned under `new_content`; there is no `content` key. -/
def editSuccess (opRendered : String) (oldContent newContent msg : String) :
    ToolResult :=
  ⟨true,
   some (.obj [("operation", .str opRendered),
               ("new_content", .str newContent),
               ("message", .str msg),
               ("stats", editStats oldContent newContent)]),
   none⟩

def executeEditFile (parameters : Json) (editor_content : String) :
    ToolResult :=
  if editor_content = "" then ⟨false, none, some "编辑器内容为空"⟩
  else
    let contentStr :=
      match parameters.get "content" with
      | none => "undefined"
      | some j => j.toJsString
    match parameters.get "operation" with
    | some (.str "append") =>
      let newContent := editor_content ++ "\n\n" ++ contentStr
      editSuccess "append" editor_content newContent "文件已成功追加内容"
    | some (.str "replace") =>
      match parameters.get "target_text" with
      | none => ⟨false, none, some "未找到要替换的目标文本"⟩
      | some tj =>
        if tj.truthy then
          let target := tj.toJsString
          if includesSub editor_content.data target.data then
            editSuccess "replace" editor_content
              (replaceFirst editor_content target contentStr)
              "文件已成功替换内容"
          else ⟨false, none, some "未找到要替换的目标文本"⟩
        else ⟨false, none, some "未找到要替换的目标文本"⟩
    | some (.str "insert_at") =>
      match parameters.get "position" with
      | none => ⟨false, none, some "插入位置无效"⟩
      | some (.num n) =>
        if n < 0 || (editor_content.length : Int) < n then
          ⟨false, none, some "插入位置无效"⟩
        else
          let k := n.toNat
          editSuccess "insert_at" editor_content
            (String.mk (editor_content.data.take k ++ contentStr.data
              ++ editor_content.data.drop k))
            "文件已成功插入内容"
      | some _ =>
        editSuccess "insert_at" editor_content
          (contentStr ++ editor_content) "文件已成功插入内容"
    | some op =>
      ⟨false, none, some ("不支持的操作类型: " ++ op.toJsString)⟩
    | none => ⟨false, none, some ("不支持的操作类型: " ++ "undefined")⟩

end Agent

/-! ## Streaming route (`server/routes/agent.cjs`, `POST /api/agent/stream`)

The handler validates the request, writes a `start` event, relays one
`chunk` event per backend callback, and finishes with a single
`complete` (running `parseToolCalls`/`extractContentBeforeToolCall` on
the accumulated text) or, from the `catch` block, a single `error`.
Crucially, the `!apiKey` check — and the prompt-building step, which
throws on a missing `input` — run **before** the `start` event is
written, so a request failing validation produces an `error` event with
no preceding `start`.  The `data: [DONE]` sentinel line is not an event
and is not modelled.  The backend stream is abstracted as the list of
callback firings followed by either a resolution (final text and
reasoning) or a rejection. -/

namespace StreamRoute

open ToolParser (ToolCall parseToolCalls extractContentBeforeToolCall)

/-- The wire events (`type` tags `start`/`chunk`/`complete`/`error`). -/
inductive SEvent where
  | start (model : String)
  | chunk (content : String) (fullResponse : String)
      (reasoning : Option (String × String))
  | complete (fullResponse : String) (toolCalls : List ToolCall)
      (fullReasoning : Option String)
  | error (msg : String)
deriving Repr

/-- The discriminating tag of an event. -/
inductive EKind where
  | start
  | chunk
  | complete
  | error
deriving Repr, DecidableEq

def SEvent.kind : SEvent → EKind
  | .start _ => .start
  | .chunk _ _ _ => .chunk
  | .complete _ _ _ => .complete
  | .error _ => .error

/-- `complete` or `error`. -/
def SEvent.isTerminal (e : SEvent) : Bool :=
  e.kind = EKind.complete || e.kind = EKind.error

/-- The request fields the event sequence depends on.  `input = none`
models a request body without `input`: `generatePrompt` then throws
(`input.startsWith` on `undefined`) before the `start` event. -/
structure StreamReq where
  model : String
  apiKey : String
  input : Option String
deriving Repr

/-- One firing of the backend's `onChunk(content, fullResponse,
reasoningContent, fullReasoningContent)` callback. -/
structure StreamChunk where
  content : String
  fullResponse : String
  reasoningContent : String
  fullReasoning : String
deriving Repr

/-- How the backend stream settles after its callbacks: resolution with
the final accumulated text, or rejection. -/
inductive StreamSettle where
  | ok (finalResponse : String) (finalReasoning : String)
  | fail (msg : String)
deriving Repr

/-- The `chunk` event written for one callback firing;
`reasoning_content`/`full_reasoning` are attached only for the reasoner
model with a nonempty reasoning delta. -/
def chunkEvent (model : String) (c : StreamChunk) : SEvent :=
  .chunk c.content c.fullResponse
    (if model = "deepseek-reasoner" && c.reasoningContent ≠ "" then
       some (c.reasoningContent, c.fullReasoning)
     else none)

/-- The `complete` event: tool calls parsed from the full response, the
response truncated before the tool marker when a call was found, the
reasoning attached when nonempty. -/
def completeEvent (fullResponse fullReasoning : String) : SEvent :=
  let toolCalls := parseToolCalls fullResponse
  let finalResponse :=
    if toolCalls.length > 0 then extractContentBeforeToolCall fullResponse
    else fullResponse
  .complete finalResponse toolCalls
    (if fullReasoning ≠ "" then some fullReasoning else none)

/-- The full event sequence written by one invocation of the `/stream`
handler. -/
def streamRoute (req : StreamReq) (chunks : List StreamChunk)
    (settle : StreamSettle) : List SEvent :=
  if req.apiKey = "" then [.error "API Key不能为空"]
  else
    match req.input with
    | none =>
      [.error "Cannot read properties of undefined (reading 'startsWith')"]
    | some _ =>
      .start req.model ::
        (if req.model = "deepseek" || req.model = "deepseek-reasoner" then
          chunks.map (chunkEvent req.model) ++
            (match settle with
             | .ok fr frz => [completeEvent fr frz]
             | .fail m => [.error m])
        else [.error "该模型不支持流式输出，请使用普通接口"])

end StreamRoute

/-! ## ContentCache lemmas -/

namespace ContentCache

theorem mem_of_mem_mapDelete {p : String × CEntry} {k : String} :
    ∀ {c : Cache}, p ∈ mapDelete k c → p ∈ c
  | [], h => by simpa [mapDelete] using h
  | (k', v') :: rest, h => by
    by_cases hk : k' = k
    · simp [mapDelete, hk] at h
      exact List.mem_cons_of_mem _ h
    · simp only [mapDelete, if_neg hk] at h
      rcases List.mem_cons.1 h with h | h
      · exact h ▸ List.mem_cons_self _ _
      · exact List.mem_cons_of_mem _ (mem_of_mem_mapDelete h)

theorem mem_mapDelete_of_ne {p : String × CEntry} {k : String} :
    ∀ {c : Cache}, p ∈ c → p.1 ≠ k → p ∈ mapDelete k c
  | [], h, _ => by simpa using h
  | (k', v') :: rest, h, hne => by
    by_cases hk : k' = k
    · simp only [mapDelete, if_pos hk]
      rcases List.mem_cons.1 h with h | h
      · exact absurd (h ▸ hk) hne
      · exact h
    · simp only [mapDelete, if_neg hk]
      rcases List.mem_cons.1 h with h | h
      · exact h ▸ List.mem_cons_self _ _
      · exact List.mem_cons_of_mem _ (mem_mapDelete_of_ne h hne)

theorem mapGet_eq_none_iff {k : String} :
    ∀ {c : Cache}, mapGet k c = none ↔ ∀ p ∈ c, p.1 ≠ k
  | [] => by simp [mapGet]
  | (k', v') :: rest => by
    by_cases hk : k' = k
    · simp [mapGet, hk]
    · simp only [mapGet, if_neg hk, List.mem_cons]
      constructor
      · rintro h p (rfl | hp)
        · exact hk
        · exact (mapGet_eq_none_iff.1 h) p hp
      · intro h
        exact mapGet_eq_none_iff.2 fun p hp => h p (Or.inr hp)

theorem mapGet_mapDelete_self {k : String} :
    ∀ {c : Cache}, (c.map Prod.fst).Nodup → mapGet k (mapDelete k c) = none
  | [], _ => rfl
  | (k', v') :: rest, hnd => by
    have hnd' : k' ∉ rest.map Prod.fst ∧ (rest.map Prod.fst).Nodup := by
      rw [List.map_cons, List.nodup_cons] at hnd
      exact hnd
    by_cases hk : k' = k
    · simp only [mapDelete, if_pos hk]
      exact mapGet_eq_none_iff.2 fun p hp hpk =>
        hnd'.1 (hk ▸ hpk ▸ List.mem_map_of_mem Prod.fst hp)
    · simp only [mapDelete, if_neg hk, mapGet, if_neg hk]
      exact mapGet_mapDelete_self hnd'.2

theorem length_mapDelete_of_mem {k : String} :
    ∀ {c : Cache}, k ∈ c.map Prod.fst →
      (mapDelete k c).length + 1 = c.length
  | [], h => by simp at h
  | (k', v') :: rest, h => by
    by_cases hk : k' = k
    · simp [mapDelete, hk]
    · have : k ∈ rest.map Prod.fst := by
        rcases List.mem_map.1 h with ⟨p, hp, hpk⟩
        rcases List.mem_cons.1 hp with rfl | hp
        · exact absurd hpk hk
        · exact hpk ▸ List.mem_map_of_mem Prod.fst hp
      simp only [mapDelete, if_neg hk, List.length_cons]
      rw [← length_mapDelete_of_mem this]

theorem findByHash_eq_none_iff {h : String} :
    ∀ {c : Cache}, findByHash h c = none ↔ ∀ p ∈ c, p.2.hash ≠ h
  | [] => by simp [findByHash]
  | (k, v) :: rest => by
    by_cases hv : v.hash = h
    · simp [findByHash, hv]
    · simp only [findByHash, if_neg hv, List.mem_cons]
      constructor
      · rintro hf p (rfl | hp)
        · exact hv
        · exact (findByHash_eq_none_iff.1 hf) p hp
      · intro hall
        exact findByHash_eq_none_iff.2 fun p hp => hall p (Or.inr hp)

theorem findOldest_mem :
    ∀ {c : Cache} {kv : String × CEntry}, findOldest c = some kv → kv ∈ c
  | [], _, h => by simp [findOldest] at h
  | (k, v) :: rest, kv, h => by
    simp only [findOldest] at h
    rcases hr : findOldest rest with _ | ⟨k', v'⟩
    · rw [hr] at h
      dsimp only at h
      exact List.mem_cons.2 (Or.inl (Option.some_injective _ h).symm)
    · rw [hr] at h
      dsimp only at h
      by_cases hlt : v'.lastAccess < v.lastAccess
      · rw [if_pos hlt] at h
        exact List.mem_cons_of_mem _ (findOldest_mem (hr.trans (congrArg some (Option.some_injective _ h))))
      · rw [if_neg hlt] at h
        exact List.mem_cons.2 (Or.inl (Option.some_injective _ h).symm)

theorem findOldest_isSome :
    ∀ {c : Cache}, c ≠ [] → ∃ kv, findOldest c = some kv
  | [], h => absurd rfl h
  | (k, v) :: rest, _ => by
    simp only [findOldest]
    rcases hr : findOldest rest with _ | ⟨k', v'⟩
    · exact ⟨(k, v), rfl⟩
    · by_cases hlt : v'.lastAccess < v.lastAccess
      · exact ⟨(k', v'), by dsimp only; rw [if_pos hlt]⟩
      · exact ⟨(k, v), by dsimp only; rw [if_neg hlt]⟩

theorem findOldest_min :
    ∀ {c : Cache} {k : String} {v : CEntry}, findOldest c = some (k, v) →
      ∀ p ∈ c, v.lastAccess ≤ p.2.lastAccess
  | [], _, _, h => by simp [findOldest] at h
  | (k0, v0) :: rest, k, v, h => by
    simp only [findOldest] at h
    rcases hr : findOldest rest with _ | ⟨k', v'⟩
    · rw [hr] at h
      dsimp only at h
      obtain ⟨rfl, rfl⟩ : k0 = k ∧ v0 = v := by
        have := Option.some_injective _ h
        exact ⟨congrArg Prod.fst this, congrArg Prod.snd this⟩
      intro p hp
      rcases List.mem_cons.1 hp with rfl | hp
      · exact le_refl _
      · have : rest = [] := by
          cases rest with
          | nil => rfl
          | cons a t => exact absurd hr (by
              rcases findOldest_isSome (c := a :: t) (by simp) with ⟨kv, hkv⟩
              simp [hkv])
        simp [this] at hp
    · rw [hr] at h
      dsimp only at h
      by_cases hlt : v'.lastAccess < v0.lastAccess
      · rw [if_pos hlt] at h
        obtain ⟨rfl, rfl⟩ : k' = k ∧ v' = v := by
          have := Option.some_injective _ h
          exact ⟨congrArg Prod.fst this, congrArg Prod.snd this⟩
        intro p hp
        rcases List.mem_cons.1 hp with rfl | hp
        · exact le_of_lt hlt
        · exact findOldest_min hr p hp
      · rw [if_neg hlt] at h
        obtain ⟨rfl, rfl⟩ : k0 = k ∧ v0 = v := by
          have := Option.some_injective _ h
          exact ⟨congrArg Prod.fst this, congrArg Prod.snd this⟩
        intro p hp
        rcases List.mem_cons.1 hp with rfl | hp
        · exact le_refl _
        · exact le_trans (not_lt.1 hlt) (findOldest_min hr p hp)

theorem cleanExpiredCache_eq_self {now : Nat} {c : Cache}
    (h : ∀ p ∈ c, isExpired now p.2 = false) :
    cleanExpiredCache now c = c := by
  unfold cleanExpiredCache
  exact List.filter_eq_self.2 fun p hp => by simp [h p hp]

theorem mapSet_eq_append {k : String} {v : CEntry} :
    ∀ {c : Cache}, k ∉ c.map Prod.fst → mapSet k v c = c ++ [(k, v)]
  | [], _ => rfl
  | (k', v') :: rest, h => by
    have hk : k' ≠ k := fun hkk => h (by simp [hkk])
    simp only [mapSet, if_neg hk, List.cons_append, List.cons.injEq, true_and]
    exact mapSet_eq_append fun hm => h (by simp [hm])

theorem mem_mapSet {p : String × CEntry} {k : String} {v : CEntry} :
    ∀ {c : Cache}, p ∈ mapSet k v c → p = (k, v) ∨ p ∈ c
  | [], h => by simpa [mapSet] using h
  | (k', v') :: rest, h => by
    by_cases hk : k' = k
    · simp only [mapSet, if_pos hk] at h
      rcases List.mem_cons.1 h with h | h
      · exact Or.inl h
      · exact Or.inr (List.mem_cons_of_mem _ h)
    · simp only [mapSet, if_neg hk] at h
      rcases List.mem_cons.1 h with h | h
      · exact Or.inr (h ▸ List.mem_cons_self _ _)
      · rcases mem_mapSet h with h | h
        · exact Or.inl h
        · exact Or.inr (List.mem_cons_of_mem _ h)

theorem mem_mapSet_of_ne {p : String × CEntry} {k : String} {v : CEntry} :
    ∀ {c : Cache}, p ∈ c → p.1 ≠ k → p ∈ mapSet k v c
  | [], h, _ => by simpa using h
  | (k', v') :: rest, h, hne => by
    by_cases hk : k' = k
    · simp only [mapSet, if_pos hk]
      rcases List.mem_cons.1 h with rfl | h
      · exact absurd hk hne
      · exact List.mem_cons_of_mem _ h
    · simp only [mapSet, if_neg hk]
      rcases List.mem_cons.1 h with rfl | h
      · exact List.mem_cons_self _ _
      · exact List.mem_cons_of_mem _ (mem_mapSet_of_ne h hne)

theorem length_mapSet_le {k : String} {v : CEntry} :
    ∀ {c : Cache}, (mapSet k v c).length ≤ c.length + 1
  | [] => by simp [mapSet]
  | (k', v') :: rest => by
    by_cases hk : k' = k
    · simp [mapSet, hk]
    · simp only [mapSet, if_neg hk, List.length_cons]
      exact Nat.succ_le_succ length_mapSet_le

end ContentCache

/-! ## Claims about the ContentCache -/

/-- C10: for every input that is the empty string or not a string,
`storeContent` returns `{ contentId: null, isNew: false, size: 0 }` and
leaves the cache map completely unchanged — no entry added, none
evicted, no access time refreshed. -/
theorem c10_store_rejects_empty_and_nonstring
    (hash : String → String) (newId : String) (now : Nat)
    (arg : ContentCache.JsArg) (c : ContentCache.Cache)
    (h : arg = ContentCache.JsArg.nonString ∨ arg = ContentCache.JsArg.jstr "") :
    ContentCache.storeContentJs hash newId now arg c = (⟨none, false, 0⟩, c) := by
  rcases h with rfl | rfl
  · rfl
  · simp [ContentCache.storeContentJs, ContentCache.storeContent]

/-- Witness for C10 at the empty string and an arbitrary nonempty
cache. -/
theorem c10_store_rejects_empty_and_nonstring_witness :
    ContentCache.storeContentJs (fun s => s) "content_w" 5
        (ContentCache.JsArg.jstr "")
        [("content_a", ⟨"abc", "abc", 0, 0⟩)] =
      (⟨none, false, 0⟩, [("content_a", ⟨"abc", "abc", 0, 0⟩)]) :=
  c10_store_rejects_empty_and_nonstring (fun s => s) "content_w" 5 _ _
    (Or.inr rfl)

/-- Counterexample to C4 as stated: dedup is **not** restricted to live
(non-expired) entries.  A single entry stored at time 0 is expired at
`CACHE_TTL + 1`, yet a `storeContent` of the same content at that time
(without an intervening `getContent`) reuses the expired entry's id with
`isNew = false` instead of allocating a fresh id. -/
theorem c4_dedup_reuses_expired_entry :
    ContentCache.isExpired (ContentCache.CACHE_TTL + 1)
        (⟨"abc", "abc", 0, 0⟩ : ContentCache.CEntry) = true ∧
    (ContentCache.storeContent (fun s => s) "content_b"
        (ContentCache.CACHE_TTL + 1) "abc"
        [("content_a", ⟨"abc", "abc", 0, 0⟩)]).1 =
      ⟨some "content_a", false, 3⟩ := by
  constructor
  · decide
  · rfl

/-- C4 (amended): an expired entry is reported absent by `getContent`
and evicted as a side effect, and a `storeContent` of the same content
**after that eviction** allocates a fresh id with `isNew = true` —
because the eviction removed the entry, not because dedup checks
liveness (it does not; see the counterexample). -/
theorem c4_expired_get_then_store_fresh
    (hash : String → String) (id : String) (e : ContentCache.CEntry)
    (c : ContentCache.Cache) (now now2 : Nat) (nid : String)
    (hid : id ≠ "")
    (hcontent : e.content ≠ "")
    (hget : ContentCache.mapGet id c = some e)
    (hexp : ContentCache.isExpired now e = true)
    (hnd : (c.map Prod.fst).Nodup)
    (huniq : ∀ p ∈ c, p.2.hash = hash e.content → p.1 = id) :
    (ContentCache.getContent now id c).1 = none ∧
    ContentCache.mapGet id (ContentCache.getContent now id c).2 = none ∧
    (ContentCache.storeContent hash nid now2 e.content
        (ContentCache.getContent now id c).2).1.isNew = true ∧
    (ContentCache.storeContent hash nid now2 e.content
        (ContentCache.getContent now id c).2).1.contentId = some nid := by
  have hgc : ContentCache.getContent now id c =
      (none, ContentCache.mapDelete id c) := by
    unfold ContentCache.getContent
    rw [if_neg hid, hget]
    dsimp only
    rw [if_pos hexp]
  rw [hgc]
  refine ⟨rfl, ContentCache.mapGet_mapDelete_self hnd, ?_⟩
  have hnone : ContentCache.findByHash (hash e.content)
      (ContentCache.mapDelete id c) = none := by
    refine ContentCache.findByHash_eq_none_iff.2 fun p hp hph => ?_
    have hpc : p ∈ c := ContentCache.mem_of_mem_mapDelete hp
    have hpk : p.1 = id := huniq p hpc hph
    have : ContentCache.mapGet id (ContentCache.mapDelete id c) ≠ none := by
      intro hcontra
      exact (ContentCache.mapGet_eq_none_iff.1 hcontra) p hp hpk
    exact this (ContentCache.mapGet_mapDelete_self hnd)
  unfold ContentCache.storeContent
  rw [if_neg hcontent]
  dsimp only
  rw [hnone]
  exact ⟨rfl, rfl⟩

/-- Witness for the amended C4: one expired entry, evicted by `get`,
then re-stored under a fresh id. -/
theorem c4_expired_get_then_store_fresh_witness :
    (ContentCache.getContent (ContentCache.CACHE_TTL + 1) "content_a"
        [("content_a", ⟨"abc", "abc", 0, 0⟩)]).1 = none ∧
    ContentCache.mapGet "content_a"
        (ContentCache.getContent (ContentCache.CACHE_TTL + 1) "content_a"
          [("content_a", ⟨"abc", "abc", 0, 0⟩)]).2 = none ∧
    (ContentCache.storeContent (fun s => s) "content_b"
        (ContentCache.CACHE_TTL + 2) "abc"
        (ContentCache.getContent (ContentCache.CACHE_TTL + 1) "content_a"
          [("content_a", ⟨"abc", "abc", 0, 0⟩)]).2).1.isNew = true ∧
    (ContentCache.storeContent (fun s => s) "content_b"
        (ContentCache.CACHE_TTL + 2) "abc"
        (ContentCache.getContent (ContentCache.CACHE_TTL + 1) "content_a"
          [("content_a", ⟨"abc", "abc", 0, 0⟩)]).2).1.contentId =
      some "content_b" :=
  c4_expired_get_then_store_fresh (fun s => s) "content_a"
    ⟨"abc", "abc", 0, 0⟩ [("content_a", ⟨"abc", "abc", 0, 0⟩)]
    (ContentCache.CACHE_TTL + 1) (ContentCache.CACHE_TTL + 2) "content_b"
    (by decide) (by decide) rfl (by decide) (by decide) (by decide)

/-- C7: when `storeContent` inserts a new distinct content (hash not
present) into a full cache with no expired entries, exactly one entry is
evicted, and it is a least-recently-accessed one: the resulting map is
the old map minus that entry plus the new one, every other entry
survives, the size is unchanged, and no surviving entry has an earlier
`lastAccess` than the evicted entry. -/
theorem c7_capacity_evicts_exactly_lru
    (hash : String → String) (nid : String) (now : Nat) (content : String)
    (c : ContentCache.Cache)
    (hcontent : content ≠ "")
    (hfresh : ∀ p ∈ c, p.2.hash ≠ hash content)
    (hlive : ∀ p ∈ c, ContentCache.isExpired now p.2 = false)
    (hfull : ContentCache.CACHE_MAX_SIZE ≤ c.length)
    (hkeys : ∀ p ∈ c, p.1 ≠ "")
    (hnid : nid ∉ c.map Prod.fst) :
    ∃ vid ve, (vid, ve) ∈ c ∧
      (∀ p ∈ c, ve.lastAccess ≤ p.2.lastAccess) ∧
      (ContentCache.storeContent hash nid now content c).2 =
        ContentCache.mapSet nid ⟨content, hash content, now, now⟩
          (ContentCache.mapDelete vid c) ∧
      (∀ p ∈ c, p.1 ≠ vid →
        p ∈ (ContentCache.storeContent hash nid now content c).2) ∧
      (ContentCache.storeContent hash nid now content c).2.length =
        c.length := by
  have hcne : c ≠ [] := by
    intro h
    rw [h] at hfull
    simp [ContentCache.CACHE_MAX_SIZE] at hfull
  obtain ⟨⟨vid, ve⟩, hold⟩ := ContentCache.findOldest_isSome hcne
  have hmem : (vid, ve) ∈ c := ContentCache.findOldest_mem hold
  have hvid : vid ≠ "" := hkeys _ hmem
  have hnone : ContentCache.findByHash (hash content) c = none :=
    ContentCache.findByHash_eq_none_iff.2 hfresh
  have hclean : ContentCache.cleanExpiredCache now c = c :=
    ContentCache.cleanExpiredCache_eq_self hlive
  have hevict : ContentCache.evictIfFull c = ContentCache.mapDelete vid c := by
    unfold ContentCache.evictIfFull
    rw [if_pos hfull, hold]
    dsimp only
    rw [if_neg hvid]
  have hstore : (ContentCache.storeContent hash nid now content c).2 =
      ContentCache.mapSet nid ⟨content, hash content, now, now⟩
        (ContentCache.mapDelete vid c) := by
    unfold ContentCache.storeContent
    rw [if_neg hcontent]
    dsimp only
    rw [hnone]
    dsimp only
    rw [hclean, hevict]
  have hvidkeys : vid ∈ c.map Prod.fst := List.mem_map_of_mem Prod.fst hmem
  have hniddel : nid ∉ (ContentCache.mapDelete vid c).map Prod.fst := by
    intro hmem'
    rcases List.mem_map.1 hmem' with ⟨p, hp, hpk⟩
    exact hnid (hpk ▸ List.mem_map_of_mem Prod.fst
      (ContentCache.mem_of_mem_mapDelete hp))
  refine ⟨vid, ve, hmem, ContentCache.findOldest_min hold, hstore, ?_, ?_⟩
  · intro p hp hpne
    rw [hstore]
    have hpnid : p.1 ≠ nid := fun h =>
      hnid (h ▸ List.mem_map_of_mem Prod.fst hp)
    exact ContentCache.mem_mapSet_of_ne
      (ContentCache.mem_mapDelete_of_ne hp hpne) hpnid
  · rw [hstore, ContentCache.mapSet_eq_append hniddel]
    have hlen := ContentCache.length_mapDelete_of_mem hvidkeys
    simp only [List.length_append, List.length_cons, List.length_nil]
    omega

/-- A concrete full cache: 50 live entries with distinct hashes, the
entry stored under `"content_0"` being the least recently accessed. -/
def demoFullCache : ContentCache.Cache :=
  (List.range 50).map fun i =>
    ("content_" ++ toString i, ⟨"c" ++ toString i, "h" ++ toString i, 0, i⟩)

/-- Witness for C7 on `demoFullCache`. -/
theorem c7_capacity_evicts_exactly_lru_witness :
    ∃ vid ve, (vid, ve) ∈ demoFullCache ∧
      (∀ p ∈ demoFullCache, ve.lastAccess ≤ p.2.lastAccess) ∧
      (ContentCache.storeContent (fun s => s) "content_x" 0 "zzz"
          demoFullCache).2 =
        ContentCache.mapSet "content_x" ⟨"zzz", "zzz", 0, 0⟩
          (ContentCache.mapDelete vid demoFullCache) ∧
      (∀ p ∈ demoFullCache, p.1 ≠ vid →
        p ∈ (ContentCache.storeContent (fun s => s) "content_x" 0 "zzz"
          demoFullCache).2) ∧
      (ContentCache.storeContent (fun s => s) "content_x" 0 "zzz"
          demoFullCache).2.length = demoFullCache.length :=
  c7_capacity_evicts_exactly_lru (fun s => s) "content_x" 0 "zzz"
    demoFullCache (by decide) (by decide) (by decide) (by decide)
    (by decide) (by decide)

namespace ContentCache

theorem hashesDistinct_iff_nodup {c : Cache} :
    hashesDistinct c ↔ (c.map fun p => p.2.hash).Nodup := by
  unfold hashesDistinct List.Nodup
  rw [List.pairwise_map]

theorem mapDelete_sublist (k : String) :
    ∀ (c : Cache), List.Sublist (mapDelete k c) c
  | [] => List.Sublist.refl _
  | (k', v') :: rest => by
    by_cases hk : k' = k
    · simp only [mapDelete, if_pos hk]
      exact List.sublist_cons_self _ _
    · simp only [mapDelete, if_neg hk]
      exact List.Sublist.cons₂ _ (mapDelete_sublist k rest)

theorem evictIfFull_sublist (c : Cache) : List.Sublist (evictIfFull c) c := by
  unfold evictIfFull
  by_cases hfull : CACHE_MAX_SIZE ≤ c.length
  · rw [if_pos hfull]
    rcases hold : findOldest c with _ | ⟨k, v⟩
    · exact List.Sublist.refl _
    · dsimp only
      by_cases hk : k = ""
      · rw [if_pos hk]
      · rw [if_neg hk]
        exact mapDelete_sublist k c
  · rw [if_neg hfull]

theorem evictIfFull_length_lt {c : Cache}
    (hkeys : ∀ p ∈ c, p.1 ≠ "") (hlen : c.length ≤ CACHE_MAX_SIZE) :
    (evictIfFull c).length < CACHE_MAX_SIZE := by
  unfold evictIfFull
  by_cases hfull : CACHE_MAX_SIZE ≤ c.length
  · rw [if_pos hfull]
    have hcne : c ≠ [] := by
      intro h
      rw [h] at hfull
      simp [CACHE_MAX_SIZE] at hfull
    obtain ⟨⟨k, v⟩, hold⟩ := findOldest_isSome hcne
    rw [hold]
    dsimp only
    rw [if_neg (hkeys _ (findOldest_mem hold))]
    have hkmem : k ∈ c.map Prod.fst :=
      List.mem_map_of_mem Prod.fst (findOldest_mem hold)
    have := length_mapDelete_of_mem hkmem
    omega
  · rw [if_neg hfull]
    omega

theorem refreshAccess_map_fst (k : String) (now : Nat) :
    ∀ (c : Cache), (refreshAccess k now c).map Prod.fst = c.map Prod.fst
  | [] => rfl
  | (k', v') :: rest => by
    by_cases hk : k' = k
    · simp [refreshAccess, hk]
    · simp only [refreshAccess, if_neg hk, List.map_cons]
      rw [refreshAccess_map_fst k now rest]

theorem refreshAccess_map_hash (k : String) (now : Nat) :
    ∀ (c : Cache),
      ((refreshAccess k now c).map fun p => p.2.hash) =
        c.map fun p => p.2.hash
  | [] => rfl
  | (k', v') :: rest => by
    by_cases hk : k' = k
    · simp [refreshAccess, hk]
    · simp only [refreshAccess, if_neg hk, List.map_cons]
      rw [refreshAccess_map_hash k now rest]

theorem refreshAccess_length (k : String) (now : Nat) (c : Cache) :
    (refreshAccess k now c).length = c.length := by
  have := congrArg List.length (refreshAccess_map_fst k now c)
  simpa using this

theorem mem_map_hash_mapSet {x : String} {k : String} {v : CEntry} :
    ∀ {c : Cache}, x ∈ (mapSet k v c).map (fun p => p.2.hash) →
      x = v.hash ∨ x ∈ c.map fun p => p.2.hash := by
  intro c hx
  rcases List.mem_map.1 hx with ⟨p, hp, hpx⟩
  rcases mem_mapSet hp with rfl | hp
  · exact Or.inl hpx.symm
  · exact Or.inr (hpx ▸ List.mem_map_of_mem _ hp)

theorem mapSet_hash_nodup {k : String} {v : CEntry} :
    ∀ {c : Cache}, (∀ p ∈ c, p.2.hash ≠ v.hash) →
      (c.map fun p => p.2.hash).Nodup →
      ((mapSet k v c).map fun p => p.2.hash).Nodup
  | [], _, _ => by simp [mapSet]
  | (k', v') :: rest, hne, hnd => by
    rw [List.map_cons, List.nodup_cons] at hnd
    by_cases hk : k' = k
    · simp only [mapSet, if_pos hk, List.map_cons, List.nodup_cons]
      refine ⟨fun hmem => ?_, hnd.2⟩
      rcases List.mem_map.1 hmem with ⟨p, hp, hpx⟩
      exact hne p (List.mem_cons_of_mem _ hp) hpx
    · simp only [mapSet, if_neg hk, List.map_cons, List.nodup_cons]
      refine ⟨fun hmem => ?_, mapSet_hash_nodup
        (fun p hp => hne p (List.mem_cons_of_mem _ hp)) hnd.2⟩
      rcases mem_map_hash_mapSet hmem with h | h
      · exact hne (k', v') (List.mem_cons_self _ _) h
      · exact hnd.1 h

/-- The combined induction invariant for C8: every key is a nonempty
(`"content_"`-prefixed) id, the size is bounded by the capacity, and no
two entries share a hash. -/
def CacheInv (c : Cache) : Prop :=
  (∀ p ∈ c, p.1 ≠ "") ∧ c.length ≤ CACHE_MAX_SIZE ∧
    (c.map fun p => p.2.hash).Nodup

theorem cacheInv_of_sublist {c c' : Cache} (hsub : List.Sublist c' c)
    (h : CacheInv c) : CacheInv c' :=
  ⟨fun p hp => h.1 p (hsub.subset hp),
   le_trans hsub.length_le h.2.1,
   h.2.2.sublist (hsub.map _)⟩

theorem storeContent_inv (hash : String → String) (nonce : String)
    (now : Nat) (content : String) {c : Cache} (h : CacheInv c) :
    CacheInv (storeContent hash ("content_" ++ nonce) now content c).2 := by
  unfold storeContent
  by_cases hc : content = ""
  · rw [if_pos hc]
    exact h
  · rw [if_neg hc]
    dsimp only
    rcases hfind : findByHash (hash content) c with _ | ⟨id, cached⟩
    · dsimp only
      have hfresh : ∀ p ∈ c, p.2.hash ≠ hash content :=
        findByHash_eq_none_iff.1 hfind
      have hsub1 : List.Sublist (cleanExpiredCache now c) c := List.filter_sublist _
      have hsub2 : List.Sublist (evictIfFull (cleanExpiredCache now c))
          (cleanExpiredCache now c) := evictIfFull_sublist _
      have hinv1 : CacheInv (cleanExpiredCache now c) :=
        cacheInv_of_sublist hsub1 h
      have hinv2 : CacheInv (evictIfFull (cleanExpiredCache now c)) :=
        cacheInv_of_sublist hsub2 hinv1
      have hkeynz : ("content_" ++ nonce) ≠ "" := by
        intro hk
        have h0 : ("content_" ++ nonce).length = 0 := by rw [hk]; rfl
        rw [String.length_append] at h0
        have h8 : ("content_" : String).length = 8 := rfl
        omega
      refine ⟨?_, ?_, ?_⟩
      · intro p hp
        rcases mem_mapSet hp with rfl | hp
        · exact hkeynz
        · exact hinv2.1 p hp
      · have hlt := evictIfFull_length_lt hinv1.1 hinv1.2.1
        exact le_trans length_mapSet_le (by omega)
      · refine mapSet_hash_nodup ?_ hinv2.2.2
        intro p hp
        exact hfresh p ((hsub1.subset) ((hsub2.subset) hp))
    · dsimp only
      exact ⟨fun p hp => by
          have : p.1 ∈ (refreshAccess id now c).map Prod.fst :=
            List.mem_map_of_mem Prod.fst hp
          rw [refreshAccess_map_fst] at this
          rcases List.mem_map.1 this with ⟨q, hq, hqp⟩
          exact hqp ▸ h.1 q hq,
        by rw [refreshAccess_length]; exact h.2.1,
        by rw [refreshAccess_map_hash]; exact h.2.2⟩

theorem getContent_inv (now : Nat) (id : String) {c : Cache}
    (h : CacheInv c) : CacheInv (getContent now id c).2 := by
  unfold getContent
  by_cases hid : id = ""
  · rw [if_pos hid]
    exact h
  · rw [if_neg hid]
    rcases hg : mapGet id c with _ | cached
    · exact h
    · dsimp only
      by_cases hexp : isExpired now cached = true
      · rw [if_pos hexp]
        exact cacheInv_of_sublist (mapDelete_sublist id c) h
      · rw [if_neg hexp]
        exact ⟨fun p hp => by
            have : p.1 ∈ (refreshAccess id now c).map Prod.fst :=
              List.mem_map_of_mem Prod.fst hp
            rw [refreshAccess_map_fst] at this
            rcases List.mem_map.1 this with ⟨q, hq, hqp⟩
            exact hqp ▸ h.1 q hq,
          by rw [refreshAccess_length]; exact h.2.1,
          by rw [refreshAccess_map_hash]; exact h.2.2⟩

theorem applyOp_inv (hash : String → String) (op : CacheOp) {c : Cache}
    (h : CacheInv c) : CacheInv (applyOp hash op c) := by
  cases op with
  | store nonce now content => exact storeContent_inv hash nonce now content h
  | get id now => exact getContent_inv now id h
  | clean now =>
    exact cacheInv_of_sublist (List.filter_sublist _) h
  | clear =>
    exact ⟨by intro p hp; simp [applyOp, clearCache] at hp,
      by simp [applyOp, clearCache],
      by simp [applyOp, clearCache]⟩

theorem runOps_inv (hash : String → String) :
    ∀ (ops : List CacheOp) {c : Cache}, CacheInv c →
      CacheInv (runOps hash ops c)
  | [], _, h => h
  | op :: ops, c, h => by
    have h1 := applyOp_inv hash op h
    simpa [runOps] using runOps_inv hash ops h1

end ContentCache

/-- C8: after any sequence of `storeContent`, `getContent`,
`cleanExpiredCache` and `clearCache` operations starting from the empty
cache, no two entries share a content hash and the number of entries
never exceeds the configured maximum of 50. -/
theorem c8_cache_invariants (hash : String → String)
    (ops : List ContentCache.CacheOp) :
    (ContentCache.runOps hash ops []).length ≤ ContentCache.CACHE_MAX_SIZE ∧
    ContentCache.hashesDistinct (ContentCache.runOps hash ops []) := by
  have h := ContentCache.runOps_inv hash ops (c := [])
    ⟨by simp, by simp [ContentCache.CACHE_MAX_SIZE], by simp⟩
  exact ⟨h.2.1, ContentCache.hashesDistinct_iff_nodup.2 h.2.2⟩

/-! ## Agent loop lemmas -/

namespace Agent

open ToolParser (ToolCall)

theorem loopAux_zero (respond : Nat → String → Option (ToolCall × ToolResult) →
      Except String AgentReply)
    (exec : Nat → ToolCall → String → ExecOutcome)
    (reply : AgentReply) (editor : String) (inv : Nat)
    (acc : List (ToolCall × ToolResult)) :
    loopAux respond exec 0 reply editor inv acc =
      ⟨acc, inv, editor, some reply, .normal⟩ := rfl

theorem loopAux_nil (respond : Nat → String → Option (ToolCall × ToolResult) →
      Except String AgentReply)
    (exec : Nat → ToolCall → String → ExecOutcome)
    (fuel : Nat) (reply : AgentReply) (editor : String) (inv : Nat)
    (acc : List (ToolCall × ToolResult)) (h : reply.tool_calls = []) :
    loopAux respond exec (fuel + 1) reply editor inv acc =
      ⟨acc, inv, editor, some reply, .normal⟩ := by
  unfold loopAux
  rw [h]

theorem loopAux_cons (respond : Nat → String → Option (ToolCall × ToolResult) →
      Except String AgentReply)
    (exec : Nat → ToolCall → String → ExecOutcome)
    (fuel : Nat) (reply : AgentReply) (editor : String) (inv : Nat)
    (acc : List (ToolCall × ToolResult)) (tc : ToolCall)
    (rest : List ToolCall) (h : reply.tool_calls = tc :: rest) :
    loopAux respond exec (fuel + 1) reply editor inv acc =
      (let result := interpretExec tc (exec acc.length tc editor)
       let editor' := updateEditorContent tc result editor
       match respond inv editor' (some (tc, result)) with
       | .error e =>
         ⟨acc ++ [(tc, result)], inv + 1, editor', none, .modelError e⟩
       | .ok reply' =>
         loopAux respond exec fuel reply' editor' (inv + 1)
           (acc ++ [(tc, result)])) := by
  conv_lhs => rw [loopAux]
  rw [h]

theorem loopAux_executed_le (respond : Nat → String →
      Option (ToolCall × ToolResult) → Except String AgentReply)
    (exec : Nat → ToolCall → String → ExecOutcome) :
    ∀ (fuel : Nat) (reply : AgentReply) (editor : String) (inv : Nat)
      (acc : List (ToolCall × ToolResult)),
      (loopAux respond exec fuel reply editor inv acc).executed.length ≤
        acc.length + fuel
  | 0, reply, editor, inv, acc => by
    rw [loopAux_zero]
    simp
  | fuel + 1, reply, editor, inv, acc => by
    rcases hreply : reply.tool_calls with _ | ⟨tc, rest⟩
    · rw [loopAux_nil respond exec fuel reply editor inv acc hreply]
      simp
    · rw [loopAux_cons respond exec fuel reply editor inv acc tc rest hreply]
      dsimp only
      rcases hresp : respond inv
          (updateEditorContent tc
            (interpretExec tc (exec acc.length tc editor)) editor)
          (some (tc, interpretExec tc (exec acc.length tc editor))) with
        e | reply'
      · dsimp only
        simp
      · dsimp only
        have ih := loopAux_executed_le respond exec fuel reply'
          (updateEditorContent tc
            (interpretExec tc (exec acc.length tc editor)) editor)
          (inv + 1)
          (acc ++ [(tc, interpretExec tc (exec acc.length tc editor))])
        simp only [List.length_append, List.length_cons, List.length_nil]
          at ih ⊢
        omega

theorem loopAux_invocations (respond : Nat → String →
      Option (ToolCall × ToolResult) → Except String AgentReply)
    (exec : Nat → ToolCall → String → ExecOutcome) :
    ∀ (fuel : Nat) (reply : AgentReply) (editor : String) (inv : Nat)
      (acc : List (ToolCall × ToolResult)),
      (loopAux respond exec fuel reply editor inv acc).invocations +
        acc.length =
      inv + (loopAux respond exec fuel reply editor inv acc).executed.length
  | 0, reply, editor, inv, acc => by
    rw [loopAux_zero]
  | fuel + 1, reply, editor, inv, acc => by
    rcases hreply : reply.tool_calls with _ | ⟨tc, rest⟩
    · rw [loopAux_nil respond exec fuel reply editor inv acc hreply]
    · rw [loopAux_cons respond exec fuel reply editor inv acc tc rest hreply]
      dsimp only
      rcases hresp : respond inv
          (updateEditorContent tc
            (interpretExec tc (exec acc.length tc editor)) editor)
          (some (tc, interpretExec tc (exec acc.length tc editor))) with
        e | reply'
      · dsimp only
        simp only [List.length_append, List.length_cons, List.length_nil]
        omega
      · dsimp only
        have ih := loopAux_invocations respond exec fuel reply'
          (updateEditorContent tc
            (interpretExec tc (exec acc.length tc editor)) editor)
          (inv + 1)
          (acc ++ [(tc, interpretExec tc (exec acc.length tc editor))])
        simp only [List.length_append, List.length_cons, List.length_nil]
          at ih ⊢
        omega

theorem loopAux_outcome_normal (respond : Nat → String →
      Option (ToolCall × ToolResult) → Except String AgentReply)
    (exec : Nat → ToolCall → String → ExecOutcome)
    (hok : ∀ n e p, ∃ r, respond n e p = Except.ok r) :
    ∀ (fuel : Nat) (reply : AgentReply) (editor : String) (inv : Nat)
      (acc : List (ToolCall × ToolResult)),
      (loopAux respond exec fuel reply editor inv acc).outcome =
        Outcome.normal
  | 0, reply, editor, inv, acc => by
    rw [loopAux_zero]
  | fuel + 1, reply, editor, inv, acc => by
    rcases hreply : reply.tool_calls with _ | ⟨tc, rest⟩
    · rw [loopAux_nil respond exec fuel reply editor inv acc hreply]
    · rw [loopAux_cons respond exec fuel reply editor inv acc tc rest hreply]
      dsimp only
      obtain ⟨r, hr⟩ := hok inv
        (updateEditorContent tc
          (interpretExec tc (exec acc.length tc editor)) editor)
        (some (tc, interpretExec tc (exec acc.length tc editor)))
      rw [hr]
      exact loopAux_outcome_normal respond exec hok fuel r _ _ _

/-- The failed-result predicate of C6: `success = false` and an error
message present. -/
def failedResult (p : ToolCall × ToolResult) : Bool :=
  !p.2.success && p.2.error.isSome

/-- An executor behavior that does not settle with a result: a thrown
error or the 30-second timeout. -/
def execFails (o : ExecOutcome) : Prop :=
  o = ExecOutcome.timeout ∨ ∃ m, o = ExecOutcome.thrown m

theorem interpretExec_failed {tc : ToolCall} {o : ExecOutcome}
    (h : execFails o) : failedResult (tc, interpretExec tc o) = true := by
  rcases h with rfl | ⟨m, rfl⟩ <;> rfl

theorem loopAux_all_failed (respond : Nat → String →
      Option (ToolCall × ToolResult) → Except String AgentReply)
    (exec : Nat → ToolCall → String → ExecOutcome)
    (hfail : ∀ i tc e, execFails (exec i tc e)) :
    ∀ (fuel : Nat) (reply : AgentReply) (editor : String) (inv : Nat)
      (acc : List (ToolCall × ToolResult)),
      acc.all failedResult = true →
      (loopAux respond exec fuel reply editor inv acc).executed.all
        failedResult = true
  | 0, reply, editor, inv, acc, hacc => by
    rw [loopAux_zero]
    exact hacc
  | fuel + 1, reply, editor, inv, acc, hacc => by
    rcases hreply : reply.tool_calls with _ | ⟨tc, rest⟩
    · rw [loopAux_nil respond exec fuel reply editor inv acc hreply]
      exact hacc
    · rw [loopAux_cons respond exec fuel reply editor inv acc tc rest hreply]
      dsimp only
      have hstep : (acc ++ [(tc, interpretExec tc
          (exec acc.length tc editor))]).all failedResult = true := by
        rw [List.all_append, hacc]
        simp only [List.all_cons, List.all_nil, Bool.and_true, Bool.true_and]
        exact interpretExec_failed (hfail acc.length tc editor)
      rcases hresp : respond inv
          (updateEditorContent tc
            (interpretExec tc (exec acc.length tc editor)) editor)
          (some (tc, interpretExec tc (exec acc.length tc editor))) with
        e | reply'
      · dsimp only
        exact hstep
      · dsimp only
        exact loopAux_all_failed respond exec hfail fuel reply' _ _ _ hstep

end Agent

/-! ## Claims about the orchestration loop -/

/-- C1 (amended): the loop executes at most ten tool calls per user
turn — the eleventh requested tool execution never occurs — but no
`IterationLimitExceeded` failure exists in the code: when the iteration
bound is hit the `while` loop is exited silently and the turn completes
with the normal outcome (see the counterexample). -/
theorem c1_at_most_ten_tool_calls
    (respond : Nat → String → Option (ToolParser.ToolCall × Agent.ToolResult) →
      Except String Agent.AgentReply)
    (exec : Nat → ToolParser.ToolCall → String → Agent.ExecOutcome)
    (editor0 : String) :
    (Agent.runToolLoop respond exec editor0).executed.length ≤
      Agent.MAX_TOOL_ITERATIONS ∧
    ((∀ n e p, ∃ r, respond n e p = Except.ok r) →
      (Agent.runToolLoop respond exec editor0).outcome =
        Agent.Outcome.normal) := by
  unfold Agent.runToolLoop
  rcases hresp : respond 0 editor0 none with e | r0
  · exact ⟨by simp [Agent.MAX_TOOL_ITERATIONS], fun hok => by
      obtain ⟨r, hr⟩ := hok 0 editor0 none
      rw [hresp] at hr
      cases hr⟩
  · constructor
    · have h := Agent.loopAux_executed_le respond exec
        Agent.MAX_TOOL_ITERATIONS r0 editor0 1 []
      simpa using h
    · intro hok
      exact Agent.loopAux_outcome_normal respond exec hok
        Agent.MAX_TOOL_ITERATIONS r0 editor0 1 []

/-- Witness for C1 at a model that never requests a tool. -/
theorem c1_at_most_ten_tool_calls_witness :
    (Agent.runToolLoop (fun _ _ _ => Except.ok ⟨"Hi there.", "", []⟩)
        (fun _ _ _ => Agent.ExecOutcome.ok ⟨true, none, none⟩)
        "").executed.length ≤ Agent.MAX_TOOL_ITERATIONS ∧
    (Agent.runToolLoop (fun _ _ _ => Except.ok ⟨"Hi there.", "", []⟩)
        (fun _ _ _ => Agent.ExecOutcome.ok ⟨true, none, none⟩)
        "").outcome = Agent.Outcome.normal :=
  ⟨(c1_at_most_ten_tool_calls _ _ "").1,
   (c1_at_most_ten_tool_calls _ _ "").2 (fun _ _ _ => ⟨_, rfl⟩)⟩

/-- Counterexample to C1 as stated: with a model that requests a tool in
every reply and a tool that always succeeds, exactly ten tool calls are
executed, the final reply still requests an (eleventh) tool call — yet
the outcome is the normal one: no distinct `IterationLimitExceeded`
failure is surfaced to the caller. -/
theorem c1_iteration_limit_is_silent :
    (Agent.runToolLoop
        (fun _ _ _ => Except.ok ⟨"", "", [⟨"search_papers", Json.obj []⟩]⟩)
        (fun _ _ _ => Agent.ExecOutcome.ok ⟨true, none, none⟩)
        "").executed.length = 10 ∧
    (Agent.runToolLoop
        (fun _ _ _ => Except.ok ⟨"", "", [⟨"search_papers", Json.obj []⟩]⟩)
        (fun _ _ _ => Agent.ExecOutcome.ok ⟨true, none, none⟩)
        "").outcome = Agent.Outcome.normal ∧
    ((Agent.runToolLoop
        (fun _ _ _ => Except.ok ⟨"", "", [⟨"search_papers", Json.obj []⟩]⟩)
        (fun _ _ _ => Agent.ExecOutcome.ok ⟨true, none, none⟩)
        "").finalReply.map fun r => r.tool_calls.length) = some 1 := by
  refine ⟨rfl, rfl, rfl⟩

/-- C6: a thrown executor error or a 30-second timeout does not abort
the loop: the recorded result for every executed call is
`interpretExec`'s conversion — in particular, when every execution fails
the recorded results all have `success = false` with an error message —
and every executed tool call is followed by exactly one further model
invocation (the fold-back), so the number of model invocations is always
the number of tool executions plus one. -/
theorem c6_tool_failure_recovery
    (respond : Nat → String → Option (ToolParser.ToolCall × Agent.ToolResult) →
      Except String Agent.AgentReply)
    (exec : Nat → ToolParser.ToolCall → String → Agent.ExecOutcome)
    (editor0 : String) :
    (Agent.runToolLoop respond exec editor0).invocations =
      (Agent.runToolLoop respond exec editor0).executed.length + 1 ∧
    ((∀ i tc e, Agent.execFails (exec i tc e)) →
      (Agent.runToolLoop respond exec editor0).executed.all
        Agent.failedResult = true) := by
  unfold Agent.runToolLoop
  rcases hresp : respond 0 editor0 none with e | r0
  · exact ⟨rfl, fun _ => rfl⟩
  · dsimp only
    constructor
    · have h := Agent.loopAux_invocations respond exec
        Agent.MAX_TOOL_ITERATIONS r0 editor0 1 []
      simp only [List.length_nil, Nat.add_zero] at h
      omega
    · intro hfail
      exact Agent.loopAux_all_failed respond exec hfail
        Agent.MAX_TOOL_ITERATIONS r0 editor0 1 [] rfl

/-- Witness for C6: one requested tool whose execution throws. -/
theorem c6_tool_failure_recovery_witness :
    (Agent.runToolLoop
        (fun n _ _ => Except.ok (if n = 0 then
            ⟨"", "", [⟨"view_file", Json.obj []⟩]⟩ else ⟨"done", "", []⟩))
        (fun _ _ _ => Agent.ExecOutcome.thrown "boom")
        "doc").invocations =
      (Agent.runToolLoop
        (fun n _ _ => Except.ok (if n = 0 then
            ⟨"", "", [⟨"view_file", Json.obj []⟩]⟩ else ⟨"done", "", []⟩))
        (fun _ _ _ => Agent.ExecOutcome.thrown "boom")
        "doc").executed.length + 1 ∧
    (Agent.runToolLoop
        (fun n _ _ => Except.ok (if n = 0 then
            ⟨"", "", [⟨"view_file", Json.obj []⟩]⟩ else ⟨"done", "", []⟩))
        (fun _ _ _ => Agent.ExecOutcome.thrown "boom")
        "doc").executed.all Agent.failedResult = true :=
  ⟨(c6_tool_failure_recovery _ _ "doc").1,
   (c6_tool_failure_recovery _ _ "doc").2
     (fun _ _ _ => Or.inr ⟨"boom", rfl⟩)⟩

namespace Agent

open ToolParser (ToolCall)

theorem editSuccess_dataGet_content (op old new msg : String) :
    (editSuccess op old new msg).dataGet "content" = none := rfl

theorem editSuccess_dataGet_new_content (op old new msg : String) :
    (editSuccess op old new msg).dataGet "new_content" =
      some (Json.str new) := rfl

theorem executeEditFile_dataGet_content (parameters : Json) (ec : String) :
    (executeEditFile parameters ec).dataGet "content" = none := by
  unfold executeEditFile
  dsimp only
  repeat' split
  all_goals rfl

theorem executeEditFile_success_new_content (parameters : Json)
    (ec : String) (h : (executeEditFile parameters ec).success = true) :
    ∃ s, (executeEditFile parameters ec).dataGet "new_content" =
      some (Json.str s) := by
  revert h
  unfold executeEditFile
  dsimp only
  repeat' split
  all_goals intro h
  all_goals first
    | exact ⟨_, editSuccess_dataGet_new_content _ _ _ _⟩
    | simp at h

theorem updateEditorContent_ne {tc : ToolCall} {r : ToolResult}
    {cur : String} (h : tc.tool_name ≠ "edit_file") :
    updateEditorContent tc r cur = cur := by
  unfold updateEditorContent
  have hb : (tc.tool_name == "edit_file") = false := by
    simpa using h
  rw [hb]
  simp

theorem updateEditorContent_executeEditFile (tc : ToolCall)
    (parameters : Json) (ec cur : String) :
    updateEditorContent tc (executeEditFile parameters ec) cur = cur := by
  unfold updateEditorContent
  split
  · rw [executeEditFile_dataGet_content]
  · rfl

theorem loopAux_editor_frame (respond : Nat → String →
      Option (ToolCall × ToolResult) → Except String AgentReply)
    (exec : Nat → ToolCall → String → ExecOutcome)
    (hexec : ∀ i tc e, tc.tool_name = "edit_file" →
      exec i tc e = ExecOutcome.ok (executeEditFile tc.parameters e)) :
    ∀ (fuel : Nat) (reply : AgentReply) (editor : String) (inv : Nat)
      (acc : List (ToolCall × ToolResult)),
      (loopAux respond exec fuel reply editor inv acc).finalEditor = editor
  | 0, reply, editor, inv, acc => by
    rw [loopAux_zero]
  | fuel + 1, reply, editor, inv, acc => by
    rcases hreply : reply.tool_calls with _ | ⟨tc, rest⟩
    · rw [loopAux_nil respond exec fuel reply editor inv acc hreply]
    · rw [loopAux_cons respond exec fuel reply editor inv acc tc rest hreply]
      dsimp only
      have hupd : updateEditorContent tc
          (interpretExec tc (exec acc.length tc editor)) editor = editor := by
        by_cases hname : tc.tool_name = "edit_file"
        · rw [hexec acc.length tc editor hname]
          exact updateEditorContent_executeEditFile tc tc.parameters editor
            editor
        · exact updateEditorContent_ne hname
      rw [hupd]
      rcases hresp : respond inv editor
          (some (tc, interpretExec tc (exec acc.length tc editor))) with
        e | reply'
      · rfl
      · exact loopAux_editor_frame respond exec hexec fuel reply' editor
          (inv + 1) (acc ++ [(tc, interpretExec tc (exec acc.length tc editor))])

end Agent

/-- C9: a successful `executeEditFile` returns the modified document
only under `data.new_content` and never under `data.content`;
consequently the loop's editor update — which fires only on a truthy
`result.data.content` — never fires for `edit_file`, and the editor
content the loop holds is unchanged across the whole turn. -/
theorem c9_edit_file_leaves_editor_unchanged :
    (∀ (parameters : Json) (ec : String),
      (Agent.executeEditFile parameters ec).success = true →
      (Agent.executeEditFile parameters ec).dataGet "content" = none ∧
      ∃ s, (Agent.executeEditFile parameters ec).dataGet "new_content" =
        some (Json.str s)) ∧
    (∀ (respond : Nat → String →
        Option (ToolParser.ToolCall × Agent.ToolResult) →
        Except String Agent.AgentReply)
      (exec : Nat → ToolParser.ToolCall → String → Agent.ExecOutcome)
      (editor0 : String),
      (∀ i tc e, tc.tool_name = "edit_file" →
        exec i tc e = Agent.ExecOutcome.ok
          (Agent.executeEditFile tc.parameters e)) →
      (Agent.runToolLoop respond exec editor0).finalEditor = editor0) := by
  constructor
  · intro parameters ec h
    exact ⟨Agent.executeEditFile_dataGet_content parameters ec,
      Agent.executeEditFile_success_new_content parameters ec h⟩
  · intro respond exec editor0 hexec
    unfold Agent.runToolLoop
    rcases hresp : respond 0 editor0 none with e | r0
    · rfl
    · exact Agent.loopAux_editor_frame respond exec hexec
        Agent.MAX_TOOL_ITERATIONS r0 editor0 1 []

/-! ## Claims about the ToolParser -/

namespace ToolParser

theorem firstMarkerIndexGo_eq_none (i : Nat) :
    ∀ (cs : List Char), (∀ k, markerAt (cs.drop k) = false) →
      firstMarkerIndexGo i cs = none
  | [], h => by
    have h0 := h 0
    simp only [List.drop_zero] at h0
    simp [firstMarkerIndexGo, h0]
  | c :: t, h => by
    have h0 := h 0
    simp only [List.drop_zero] at h0
    simp only [firstMarkerIndexGo, h0, if_neg]
    exact firstMarkerIndexGo_eq_none (i + 1) t fun k => by
      have := h (k + 1)
      simpa using this

theorem firstMarkerIndexGo_eq_some (i : Nat) :
    ∀ (k : Nat) (cs : List Char), markerAt (cs.drop k) = true →
      (∀ l, l < k → markerAt (cs.drop l) = false) →
      firstMarkerIndexGo i cs = some (i + k)
  | 0, cs, hk, _ => by
    simp only [List.drop_zero] at hk
    cases cs with
    | nil => simp [firstMarkerIndexGo, hk]
    | cons c t => simp [firstMarkerIndexGo, hk]
  | k + 1, cs, hk, hmin => by
    have h0 := hmin 0 (Nat.succ_pos k)
    simp only [List.drop_zero] at h0
    cases cs with
    | nil =>
      rw [List.drop_nil] at hk
      rw [show markerAt [] = false from rfl] at hk
      cases hk
    | cons c t =>
      simp only [firstMarkerIndexGo, h0, if_neg, Bool.false_eq_true,
        not_false_eq_true, if_false]
      have := firstMarkerIndexGo_eq_some (i + 1) k t
        (by simpa using hk)
        (fun l hl => by
          have := hmin (l + 1) (Nat.succ_lt_succ hl)
          simpa using this)
      rw [this]
      congr 1
      omega

end ToolParser

/-- C3 (amended): `extractContentBeforeToolCall` returns the whole text
unchanged when no marker-prefix pattern matches anywhere; the empty
string when a marker matches at position 0; and otherwise the substring
strictly before the position of the earliest marker **with surrounding
whitespace trimmed** (`substring(0, index).trim()`), regardless of
whether that marker decodes as a valid tool call. -/
theorem c3_truncation_before_marker (s : String) :
    ((∀ i, ToolParser.markerAt (s.data.drop i) = false) →
      ToolParser.extractContentBeforeToolCall s = s) ∧
    (ToolParser.markerAt s.data = true →
      ToolParser.extractContentBeforeToolCall s = "") ∧
    (∀ i, 0 < i → ToolParser.markerAt (s.data.drop i) = true →
      (∀ j, j < i → ToolParser.markerAt (s.data.drop j) = false) →
      ToolParser.extractContentBeforeToolCall s =
        ToolParser.jsTrim (String.mk (s.data.take i))) := by
  refine ⟨fun hnone => ?_, fun h0 => ?_, fun i hpos hi hmin => ?_⟩
  · unfold ToolParser.extractContentBeforeToolCall
    rw [show ToolParser.firstMarkerIndex s = none from
      ToolParser.firstMarkerIndexGo_eq_none 0 s.data hnone]
  · unfold ToolParser.extractContentBeforeToolCall
    rw [show ToolParser.firstMarkerIndex s = some 0 from
      ToolParser.firstMarkerIndexGo_eq_some 0 0 s.data
        (by simpa using h0) (fun l hl => absurd hl (Nat.not_lt_zero l))]
  · unfold ToolParser.extractContentBeforeToolCall
    obtain ⟨i', rfl⟩ : ∃ i', i = i' + 1 :=
      ⟨i - 1, by omega⟩
    rw [show ToolParser.firstMarkerIndex s = some (i' + 1) from by
      have := ToolParser.firstMarkerIndexGo_eq_some 0 (i' + 1) s.data hi hmin
      simpa using this]

/-- A reply whose earliest marker sits at index 4, after `"hi  "`. -/
def c3DemoReply : String := "hi  TOOL_CALL: \x7b\"a\": 1\x7d"

/-- Witness for C3 on `c3DemoReply`, whose earliest marker sits at
index 4. -/
theorem c3_truncation_before_marker_witness :
    ToolParser.extractContentBeforeToolCall c3DemoReply =
      ToolParser.jsTrim (String.mk (c3DemoReply.data.take 4)) :=
  (c3_truncation_before_marker c3DemoReply).2.2 4 (by decide)
    (by decide) (by decide)

/-- Counterexample to C3 as stated: the prefix before the first marker
is returned **trimmed**, not verbatim.  In `c3DemoReply` the first
marker starts at index 4; the substring strictly before it is `"hi  "`,
but the function returns `"hi"`. -/
theorem c3_prefix_is_trimmed :
    ToolParser.firstMarkerIndex c3DemoReply = some 4 ∧
    String.mk (c3DemoReply.data.take 4) = "hi  " ∧
    ToolParser.extractContentBeforeToolCall c3DemoReply = "hi" ∧
    ("hi" : String) ≠ "hi  " := by
  refine ⟨rfl, rfl, rfl, by decide⟩

namespace ToolParser

theorem extractCall_valid {j : Json} {c : ToolCall}
    (h : extractCall j = some c) : isValidTool c.tool_name = true := by
  unfold extractCall at h
  split at h
  · split at h
    · split at h
      · split at h
        · split at h
          · exact (Option.some_injective _ h) ▸ ‹_›
          · cases h
        · cases h
      · cases h
    · cases h
  · cases h

theorem attemptPattern_valid {cs : List Char} {pk : PatKind} {c : ToolCall}
    (h : attemptPattern cs pk = some c) : isValidTool c.tool_name = true := by
  unfold attemptPattern at h
  split at h
  · cases h
  · split at h
    · exact extractCall_valid h
    · split at h
      · exact extractCall_valid h
      · cases h

end ToolParser

/-- C2 (amended): `parseToolCalls` returns **at most** one tool call,
always one whose name is in the tool catalog; when the
highest-priority pattern's earliest match is accepted, exactly that one
call is returned.  The returned call is the first *accepted* match in
the fixed pattern-priority order (`TOOL_CALL:`-labelled, fenced, bare
JSON), which need not be the earliest marker in the text — a later
`TOOL_CALL:`-syntax marker beats an earlier bare-JSON marker (see the
counterexample). -/
theorem c2_parse_returns_at_most_one_valid_call (s : String) :
    (ToolParser.parseToolCalls s).length ≤ 1 ∧
    (ToolParser.parseToolCalls s).all
      (fun c => ToolParser.isValidTool c.tool_name) = true ∧
    (∀ c, ToolParser.attemptPattern s.data .p1 = some c →
      ToolParser.parseToolCalls s = [c]) := by
  unfold ToolParser.parseToolCalls
  split
  · refine ⟨by simp, rfl, fun c hc => ?_⟩
    rename_i hs
    rw [hs] at hc
    rw [show ToolParser.attemptPattern ("" : String).data .p1 = none from rfl]
      at hc
    cases hc
  · rcases h1 : ToolParser.attemptPattern s.data .p1 with _ | c1
    · rcases h2 : ToolParser.attemptPattern s.data .p2 with _ | c2
      · rcases h3 : ToolParser.attemptPattern s.data .p3 with _ | c3
        · exact ⟨by simp, rfl, fun c hc => Option.noConfusion hc⟩
        · exact ⟨by simp, by
            simp only [List.all_cons, List.all_nil, Bool.and_true]
            exact ToolParser.attemptPattern_valid h3,
            fun c hc => Option.noConfusion hc⟩
      · exact ⟨by simp, by
          simp only [List.all_cons, List.all_nil, Bool.and_true]
          exact ToolParser.attemptPattern_valid h2,
          fun c hc => Option.noConfusion hc⟩
    · exact ⟨by simp, by
        simp only [List.all_cons, List.all_nil, Bool.and_true]
        exact ToolParser.attemptPattern_valid h1,
        fun c hc =>
          congrArg (fun x => [x]) (Option.some_injective _ hc)⟩

/-- A reply with a well-formed bare-JSON marker at position 0 and a
well-formed `TOOL_CALL:` marker at position 81. -/
def c2DemoReply : String :=
  "\x7b \"tool_name\": \"list_resources\", \"parameters\": \x7b\"resource_type\": \"notes\"\x7d \x7d then TOOL_CALL: \x7b\"tool_name\": \"search_papers\", \"parameters\": \x7b\"query\": \"x\"\x7d\x7d"

/-- Counterexample to C2 as stated: in a reply whose **earliest**
well-formed marker is a bare-JSON call to `list_resources` at position 0
and whose later marker is a `TOOL_CALL:`-labelled call to
`search_papers` at position 81, the parser returns the call decoded from
the **later** marker, because the `TOOL_CALL:` pattern has priority over
the bare-JSON pattern. -/
theorem c2_priority_beats_position :
    ((ToolParser.parseToolCalls c2DemoReply).map
      ToolParser.ToolCall.tool_name = ["search_papers"]) ∧
    ((ToolParser.execPat .p3 c2DemoReply.data).map Prod.fst = some 0) ∧
    ((ToolParser.attemptPattern c2DemoReply.data .p3).map
      ToolParser.ToolCall.tool_name = some "list_resources") ∧
    ((ToolParser.execPat .p1 c2DemoReply.data).map Prod.fst = some 81) := by
  refine ⟨rfl, rfl, rfl, rfl⟩

/-! ## Claims about the streaming route -/

namespace StreamRoute

/-- `start`-tagged events. -/
def SEvent.isStart (e : SEvent) : Bool := e.kind = EKind.start

theorem chunkEvent_not_terminal (m : String) (c : StreamChunk) :
    SEvent.isTerminal (chunkEvent m c) = false := rfl

theorem chunkEvent_not_start (m : String) (c : StreamChunk) :
    SEvent.isStart (chunkEvent m c) = false := rfl

theorem filter_terminal_chunks (m : String) :
    ∀ (chunks : List StreamChunk),
      (chunks.map (chunkEvent m)).filter SEvent.isTerminal = []
  | [] => rfl
  | c :: t => by
    simp only [List.map_cons, List.filter_cons, chunkEvent_not_terminal,
      Bool.false_eq_true, if_false]
    exact filter_terminal_chunks m t

theorem filter_start_chunks (m : String) :
    ∀ (chunks : List StreamChunk),
      (chunks.map (chunkEvent m)).filter SEvent.isStart = []
  | [] => rfl
  | c :: t => by
    simp only [List.map_cons, List.filter_cons, chunkEvent_not_start,
      Bool.false_eq_true, if_false]
    exact filter_start_chunks m t

theorem completeEvent_terminal (fr frz : String) :
    SEvent.isTerminal (completeEvent fr frz) = true := rfl

/-- The terminal event of the live branch of the route. -/
def settleEvent (settle : StreamSettle) : SEvent :=
  match settle with
  | .ok fr frz => completeEvent fr frz
  | .fail m => .error m

theorem settleEvent_terminal (settle : StreamSettle) :
    SEvent.isTerminal (settleEvent settle) = true := by
  cases settle with
  | ok fr frz => exact completeEvent_terminal fr frz
  | fail m => rfl

theorem settleEvent_not_start (settle : StreamSettle) :
    SEvent.isStart (settleEvent settle) = false := by
  cases settle with
  | ok fr frz => rfl
  | fail m => rfl

theorem streamRoute_live (req : StreamReq) (inp : String)
    (chunks : List StreamChunk) (settle : StreamSettle)
    (hk : req.apiKey ≠ "") (hin : req.input = some inp)
    (hm : (req.model = "deepseek" || req.model = "deepseek-reasoner") = true) :
    streamRoute req chunks settle =
      SEvent.start req.model ::
        (chunks.map (chunkEvent req.model) ++ [settleEvent settle]) := by
  unfold streamRoute
  rw [if_neg hk, hin]
  dsimp only
  rw [if_pos hm]
  cases settle with
  | ok fr frz => rfl
  | fail m => rfl

theorem streamRoute_badmodel (req : StreamReq) (inp : String)
    (chunks : List StreamChunk) (settle : StreamSettle)
    (hk : req.apiKey ≠ "") (hin : req.input = some inp)
    (hm : (req.model = "deepseek" || req.model = "deepseek-reasoner") = false) :
    streamRoute req chunks settle =
      [SEvent.start req.model,
       SEvent.error "该模型不支持流式输出，请使用普通接口"] := by
  unfold streamRoute
  rw [if_neg hk, hin]
  dsimp only
  rw [hm]
  rfl

end StreamRoute

/-- C5 (amended): every event sequence of `POST /api/agent/stream` ends
with exactly one terminal event (`complete` or `error`, never both,
never neither); when the request passes the pre-stream validation
(`apiKey` present, `input` present) the sequence begins with exactly one
`start` with only `chunk` events in between — but a request failing that
validation produces a bare `error` event with **no** preceding `start`,
because the validation throws before the `start` write. -/
theorem c5_stream_event_shape (req : StreamRoute.StreamReq)
    (chunks : List StreamRoute.StreamChunk)
    (settle : StreamRoute.StreamSettle) :
    ((StreamRoute.streamRoute req chunks settle).filter
      StreamRoute.SEvent.isTerminal).length = 1 ∧
    ((StreamRoute.streamRoute req chunks settle).getLast?.map
      StreamRoute.SEvent.isTerminal) = some true ∧
    (req.apiKey ≠ "" → req.input ≠ none →
      ((StreamRoute.streamRoute req chunks settle).head?.map
        StreamRoute.SEvent.kind) = some StreamRoute.EKind.start ∧
      ((StreamRoute.streamRoute req chunks settle).filter
        StreamRoute.SEvent.isStart).length = 1) ∧
    (req.apiKey = "" ∨ req.input = none →
      (StreamRoute.streamRoute req chunks settle).map
        StreamRoute.SEvent.kind = [StreamRoute.EKind.error]) := by
  by_cases hk : req.apiKey = ""
  · have he : StreamRoute.streamRoute req chunks settle =
        [StreamRoute.SEvent.error "API Key不能为空"] := by
      unfold StreamRoute.streamRoute
      rw [if_pos hk]
    rw [he]
    exact ⟨rfl, rfl, fun h1 _ => absurd hk h1, fun _ => rfl⟩
  · rcases hin : req.input with _ | inp
    · have he : StreamRoute.streamRoute req chunks settle =
          [StreamRoute.SEvent.error
            "Cannot read properties of undefined (reading 'startsWith')"] := by
        unfold StreamRoute.streamRoute
        rw [if_neg hk, hin]
      rw [he]
      exact ⟨rfl, rfl, fun _ h2 => absurd rfl h2, fun _ => rfl⟩
    · rcases hm : (req.model = "deepseek" || req.model = "deepseek-reasoner")
        with _ | _
      · rw [StreamRoute.streamRoute_badmodel req inp chunks settle hk hin hm]
        exact ⟨rfl, rfl, fun _ _ => ⟨rfl, rfl⟩, fun hbad => by
          rcases hbad with hbad | hbad
          · exact absurd hbad hk
          · cases hbad⟩
      · rw [StreamRoute.streamRoute_live req inp chunks settle hk hin hm]
        refine ⟨?_, ?_, fun _ _ => ⟨rfl, ?_⟩, fun hbad => by
          rcases hbad with hbad | hbad
          · exact absurd hbad hk
          · cases hbad⟩
        · rw [List.filter_cons]
          simp only [show StreamRoute.SEvent.isTerminal
            (StreamRoute.SEvent.start req.model) = false from rfl,
            Bool.false_eq_true, if_false]
          rw [List.filter_append, StreamRoute.filter_terminal_chunks]
          simp [StreamRoute.settleEvent_terminal]
        · rw [← List.cons_append, List.getLast?_concat]
          simp [StreamRoute.settleEvent_terminal]
        · rw [List.filter_cons]
          simp only [show StreamRoute.SEvent.isStart
            (StreamRoute.SEvent.start req.model) = true from rfl, if_true]
          rw [List.filter_append, StreamRoute.filter_start_chunks]
          simp [StreamRoute.settleEvent_not_start]

/-- Witness for C5: a valid request with one chunk. -/
theorem c5_stream_event_shape_witness :
    ((StreamRoute.streamRoute ⟨"deepseek", "sk-test", some "hello"⟩
        [⟨"Hi", "Hi", "", ""⟩]
        (StreamRoute.StreamSettle.ok "Hi there." "")).head?.map
      StreamRoute.SEvent.kind) = some StreamRoute.EKind.start ∧
    ((StreamRoute.streamRoute ⟨"deepseek", "sk-test", some "hello"⟩
        [⟨"Hi", "Hi", "", ""⟩]
        (StreamRoute.StreamSettle.ok "Hi there." "")).filter
      StreamRoute.SEvent.isStart).length = 1 :=
  (c5_stream_event_shape ⟨"deepseek", "sk-test", some "hello"⟩
      [⟨"Hi", "Hi", "", ""⟩]
      (StreamRoute.StreamSettle.ok "Hi there." "")).2.2.1
    (by decide) (by decide)

/-- Counterexample to C5 as stated: a request with an empty `apiKey`
yields the single event sequence `[error]` — no `start` event is ever
written, because the `!apiKey` check throws before the `start` write. -/
theorem c5_missing_key_skips_start :
    (StreamRoute.streamRoute ⟨"deepseek", "", some "hello"⟩ []
        (StreamRoute.StreamSettle.ok "Hi there." "")).map
      StreamRoute.SEvent.kind = [StreamRoute.EKind.error] ∧
    ((StreamRoute.streamRoute ⟨"deepseek", "", some "hello"⟩ []
        (StreamRoute.StreamSettle.ok "Hi there." "")).filter
      StreamRoute.SEvent.isStart).length = 0 := ⟨rfl, rfl⟩
